import Mathlib

/-!
Verification of the serialization engine of sequelize-to-json (src/index.js)
against its natural-language specification.

The JavaScript source is shallowly embedded: JS runtime values become the
inductive type `JSVal`, JS objects become ordered association lists with
JS insertion semantics (`jsSet`), fallible code returns `Except String`,
and the recursive serializer is written with an explicit fuel bound on
association depth (the only non-structural recursion in the source).
-/

/-- The recognized typed-array constructor names (src/index.js ARRAY_TYPES). -/
inductive ArrayClass where
  | array | int8Array | uint8Array | uint8ClampedArray | int16Array | uint16Array
  | int32Array | uint32Array | float32Array | float64Array
deriving DecidableEq, Repr

/-- A JavaScript runtime value, as far as the serializer can observe it.
`vdate` carries the calendar parts used by the simple-date formatter
(`getFullYear`, `getMonth` 0-based, `getDate`) plus its `toISOString` text.
`vinst` is a Sequelize model instance: the name of its model class, the
attribute store read by `inst.get(name)`, and the plain properties /
methods seen by direct property access `inst[name]` (a `vfunc` property
models a zero-argument method returning `ret`). -/
inductive JSVal where
  | vstr (s : String)
  | vnum (n : Int)
  | vbool (b : Bool)
  | vnull
  | vundefined
  | varr (cls : ArrayClass) (elems : List JSVal)
  | vdate (y : Int) (mo0 : Nat) (day : Nat) (iso : String)
  | vbuffer (bytes : List Nat)
  | vobj (fields : List (String × JSVal))
  | vinst (modelName : String) (data : List (String × JSVal)) (props : List (String × JSVal))
  | vfunc (ret : JSVal)
  | vsymbol
deriving Repr

/-- Property lookup on a JS object literal: first binding of the key wins. -/
def jsLookup {α : Type} : List (String × α) → String → Option α
  | [], _ => none
  | (k', v) :: rest, k => if k' = k then some v else jsLookup rest k

/-- JS property assignment `o[k] = v` on an object literal: overwriting an
existing key keeps its original position, a new key is appended. -/
def jsSet {α : Type} : List (String × α) → String → α → List (String × α)
  | [], k, v => [(k, v)]
  | (k', v') :: rest, k, v =>
    if k' = k then (k, v) :: rest else (k', v') :: jsSet rest k v

/-- `s[0] === c` on a JS string: true exactly when the first character is `c`
(`s[0]` of an empty string is `undefined`, never equal to a character). -/
def strStartsWith (s : String) (c : Char) : Bool :=
  match s.data with
  | [] => false
  | c' :: _ => c' = c

/-- `s.substr(1)`. -/
def strTail (s : String) : String := ⟨s.data.drop 1⟩

/-- `typeof` of an embedded JS value. -/
def jsTypeof : JSVal → String
  | .vstr _ => "string"
  | .vnum _ => "number"
  | .vbool _ => "boolean"
  | .vnull => "object"
  | .vundefined => "undefined"
  | .varr _ _ => "object"
  | .vdate _ _ _ _ => "object"
  | .vbuffer _ => "object"
  | .vobj _ => "object"
  | .vinst _ _ _ => "object"
  | .vfunc _ => "function"
  | .vsymbol => "symbol"

/-- JS truthiness test: the falsy values of the embedding. -/
def jsFalsy : JSVal → Bool
  | .vnull => true
  | .vundefined => true
  | .vbool b => !b
  | .vnum n => n == 0
  | .vstr s => s == ""
  | _ => false

/-- Constructor name of an array class. -/
def ArrayClass.ctorName : ArrayClass → String
  | .array => "Array"
  | .int8Array => "Int8Array"
  | .uint8Array => "Uint8Array"
  | .uint8ClampedArray => "Uint8ClampedArray"
  | .int16Array => "Int16Array"
  | .uint16Array => "Uint16Array"
  | .int32Array => "Int32Array"
  | .uint32Array => "Uint32Array"
  | .float32Array => "Float32Array"
  | .float64Array => "Float64Array"

/-- `(value && typeof value.constructor === 'function') ? value.constructor.name : null`
(src/index.js line 27): falsy values yield null, otherwise the constructor name. -/
def jsClassName (v : JSVal) : Option String :=
  if jsFalsy v then none
  else
    match v with
    | .vstr _ => some "String"
    | .vnum _ => some "Number"
    | .vbool _ => some "Boolean"
    | .varr cls _ => some cls.ctorName
    | .vdate _ _ _ _ => some "Date"
    | .vbuffer _ => some "Buffer"
    | .vobj _ => some "Object"
    | .vinst m _ _ => some m
    | .vfunc _ => some "Function"
    | .vsymbol => some "Symbol"
    | .vnull => none
    | .vundefined => none

def PLAIN_TYPES : List String := ["string", "number", "boolean"]

def ARRAY_TYPES : List String :=
  ["Array", "Int8Array", "Uint8Array", "Uint8ClampedArray", "Int16Array",
   "Uint16Array", "Int32Array", "Uint32Array", "Float32Array", "Float64Array"]

def DOC_DB_TYPES : List String := ["JSON", "JSONB", "HSTORE"]

/-- Encoder options object (the `encoderOptions` option); the only key the
default encoder reads is `blobEncoding`. -/
structure EncOpts where
  blobEncoding : Option String := none
deriving Repr

/-- `Buffer#toString(encoding)` is Node runtime behavior, external to this
repository; the development is parameterized by it (`bufToStr encoding bytes`).
The argument may be absent (`undefined`), as in `Buffer#toString()`. -/
abbrev BufToStr := Option String → List Nat → String

mutual

/-- src/index.js lines 26-64, `encodeToJSON(value, options)`.  Checks, in
source order: plain scalars and null are returned unchanged; values of a
recognized array class are encoded element-wise into a plain array; Dates
become their ISO string; Buffers are stringified with the configured blob
encoding (reading `options.blobEncoding` from an absent options object is a
JS TypeError); remaining `typeof 'object'` values are encoded own-property-
wise; anything else throws naming the offending `typeof`. -/
def encodeToJSON (bufToStr : BufToStr) (value : JSVal) (options : Option EncOpts) :
    Except String JSVal :=
  if PLAIN_TYPES.contains (jsTypeof value) || (match value with | .vnull => true | _ => false) then
    .ok value
  else if (jsClassName value).elim false ARRAY_TYPES.contains then
    match value with
    | .varr _ elems => do
      let es ← encodeListToJSON bufToStr elems options
      .ok (.varr .array es)
    | _ => .error "TypeError: value is not iterable"
  else
    match value with
    | .vdate _ _ _ iso => .ok (.vstr iso)
    | .vbuffer bytes =>
      match options with
      | some o => .ok (.vstr (bufToStr o.blobEncoding bytes))
      | none => .error "TypeError: Cannot read property blobEncoding of undefined"
    | .vobj fields => do
      let fs ← encodeFieldsToJSON bufToStr fields options
      .ok (.vobj fs)
    | .vinst _ data _ => do
      -- own enumerable properties of a model instance: its attribute store
      let fs ← encodeFieldsToJSON bufToStr data options
      .ok (.vobj fs)
    | v => .error ("Can't encode " ++ jsTypeof v ++ " to JSON")

/-- Element-wise encoding of an array value (the `for(let e of value)` loop). -/
def encodeListToJSON (bufToStr : BufToStr) (l : List JSVal) (options : Option EncOpts) :
    Except String (List JSVal) :=
  match l with
  | [] => .ok []
  | x :: xs => do
    let y ← encodeToJSON bufToStr x options
    let ys ← encodeListToJSON bufToStr xs options
    .ok (y :: ys)

/-- Own-property-wise encoding of a plain object (the `for(let key in value)` loop). -/
def encodeFieldsToJSON (bufToStr : BufToStr) (l : List (String × JSVal))
    (options : Option EncOpts) : Except String (List (String × JSVal)) :=
  match l with
  | [] => .ok []
  | (k, x) :: xs => do
    let y ← encodeToJSON bufToStr x options
    let ys ← encodeFieldsToJSON bufToStr xs options
    .ok ((k, y) :: ys)

end

/-- src/index.js lines 21-24, `_padWith0`. -/
def _padWith0 (v : Nat) : String :=
  let s := toString v
  if s.length = 1 then "0" ++ s else s

example : encodeToJSON (fun _ _ => "") (.vfunc .vnull) none =
    .error "Can't encode function to JSON" := by
  simp [encodeToJSON, jsTypeof, PLAIN_TYPES, jsClassName, jsFalsy]
  decide

example : encodeToJSON (fun _ _ => "") (.vsymbol) none =
    .error "Can't encode symbol to JSON" := by
  simp [encodeToJSON, jsTypeof, PLAIN_TYPES, jsClassName, jsFalsy]
  decide

example : encodeToJSON (fun _ _ => "") (.vobj [("a", .vnum 1), ("b", .vdate 2020 0 5 "D")]) none =
    .ok (.vobj [("a", .vnum 1), ("b", .vstr "D")]) := by
  simp [encodeToJSON, encodeFieldsToJSON, jsTypeof, PLAIN_TYPES, jsClassName, jsFalsy,
    ARRAY_TYPES]
  rfl

/-! ## Model metadata and options -/

/-- An entry of a model's `rawAttributes` map, with the fields the serializer
reads: `fieldName`, `type.key` (`typeKey`), `primaryKey`, `references`
(truthiness only), `_autoGenerated`. -/
structure JAttrDef where
  fieldName : String
  typeKey : String := "STRING"
  primaryKey : Bool := false
  references : Bool := false
  autoGenerated : Bool := false

/-- An entry of a model's `associations` map; the serializer only reads `as`. -/
structure JAssocDef where
  as : String

/-- The default-encoder signature: `encoder(value, encoderOptions)`. -/
abbrev EncFn := JSVal → Option EncOpts → Except String JSVal

/-- A serialization options object.  Every key is optional (`none` models an
absent key).  `attrFilter` in the source receives `(attribute, model)`; since
the model is fixed for any one engine, the embedding types the filter over the
attribute only (a JS filter is represented by its partial application at the
engine's model). -/
structure OptionsIn where
  encoder : Option EncFn := none
  undefinedPolicy : Option Int := none
  copyJSONFields : Option Bool := none
  simpleDates : Option Bool := none
  encoderOptions : Option EncOpts := none
  attrFilter : Option (JAttrDef → Bool) := none

/-- src/index.js line 66: `_policies = { FAIL: 1, SKIP: 2, SET_NULL: 3 }`. -/
def POLICY_FAIL : Int := 1

def POLICY_SKIP : Int := 2

def POLICY_SET_NULL : Int := 3

mutual

/-- A scheme object: `include`, `exclude`, `assoc`, `as`, `options`,
`postSerialize` (src README and src/index.js usage).  All keys optional. -/
inductive JScheme where
  | mk (include? : Option (List String)) (exclude : Option (List String))
      (assoc : Option (List (String × JSchemeRef))) (as : Option (List (String × String)))
      (options : Option OptionsIn) (postSerialize : Option (JSVal → JSVal → JSVal))

/-- A scheme reference as accepted by the `Serializer` constructor and by the
values of a scheme's `assoc` map: a list of scheme names, a single name, a
falsy value, or an inline scheme object. -/
inductive JSchemeRef where
  | byNames (names : List String)
  | byName (name : String)
  | absent
  | inline (s : JScheme)

end

def JScheme.include? : JScheme → Option (List String)
  | .mk i _ _ _ _ _ => i

def JScheme.exclude : JScheme → Option (List String)
  | .mk _ e _ _ _ _ => e

def JScheme.assoc : JScheme → Option (List (String × JSchemeRef))
  | .mk _ _ a _ _ _ => a

def JScheme.as : JScheme → Option (List (String × String))
  | .mk _ _ _ r _ _ => r

def JScheme.options : JScheme → Option OptionsIn
  | .mk _ _ _ _ o _ => o

def JScheme.postSerialize : JScheme → Option (JSVal → JSVal → JSVal)
  | .mk _ _ _ _ _ p => p

/-- The empty scheme `{}`. -/
def emptyScheme : JScheme := .mk none none none none none none

/-- A model's static `serializer` configuration. -/
structure JSerializerCfg where
  schemes : Option (List (String × JScheme)) := none
  defaultScheme : Option String := none
  options : Option OptionsIn := none
  postSerialize : Option (JSVal → JSVal → Option String → JSVal) := none

/-- A Sequelize model as the serializer consumes it: a name, the ordered
`rawAttributes` map, the `associations` map, and the optional static
`serializer` configuration.  Values of this type are valid models by
construction, so the constructor's `_isModel` guard always passes. -/
structure JModel where
  name : String
  rawAttributes : List (String × JAttrDef) := []
  associations : List (String × JAssocDef) := []
  serializer : Option JSerializerCfg := none

/-- src/index.js lines 68-76: the global `_defaultOptions` literal. -/
def _defaultOptions (bufToStr : BufToStr) : OptionsIn where
  encoder := some (fun v o => encodeToJSON bufToStr v o)
  undefinedPolicy := some POLICY_SKIP
  copyJSONFields := some true
  simpleDates := some true
  encoderOptions := some { blobEncoding := some "base64" }
  attrFilter := none

/-! ## Option merging (`_.defaultsDeep`)

The vendored lodash build is not part of `src/`.  `defaultsDeep` is therefore
modelled from the spec: options are deep-merged with precedence highest-first,
a key set by a higher-precedence source hiding the same key below, absent keys
falling through; the only nested options object is `encoderOptions`, which
merges key-wise. -/

/-- Modelled from the spec: one step of highest-first deep merging for the
nested `encoderOptions` object. -/
def mergeEnc2 : Option EncOpts → Option EncOpts → Option EncOpts
  | some a, some b => some { blobEncoding := a.blobEncoding <|> b.blobEncoding }
  | some a, none => some a
  | none, b => b

/-- Modelled from the spec: highest-first deep merge of two options objects
(`hi` wins key-wise, `encoderOptions` merges deeply). -/
def mergeOpts2 (hi lo : OptionsIn) : OptionsIn where
  encoder := hi.encoder <|> lo.encoder
  undefinedPolicy := hi.undefinedPolicy <|> lo.undefinedPolicy
  copyJSONFields := hi.copyJSONFields <|> lo.copyJSONFields
  simpleDates := hi.simpleDates <|> lo.simpleDates
  encoderOptions := mergeEnc2 hi.encoderOptions lo.encoderOptions
  attrFilter := hi.attrFilter <|> lo.attrFilter

/-- Modelled from the spec: `_.defaultsDeep({}, s1, s2, ...)` — deep merge of
a precedence-ordered list of options objects, highest first. -/
def mergeOptions (sources : List OptionsIn) : OptionsIn :=
  sources.foldl mergeOpts2 {}

/-! ## Attribute classification (src/index.js `_collectAttrs`) -/

/-- The seven-plus-one attribute groups collected per engine
(src/index.js lines 200-209). -/
structure AttrGroups where
  all : List String := []
  virtual : List String := []
  pk : List String := []
  fk : List String := []
  assoc : List String := []
  blob : List String := []
  doc : List String := []
  auto : List String := []

/-- Classification of a single raw attribute (body of the `for` loop of
`_collectAttrs`, src/index.js lines 230-240). -/
def classifyOne (g : AttrGroups) (a : JAttrDef) : AttrGroups :=
  let g := { g with all := g.all ++ [a.fieldName] }
  let g := if a.primaryKey then { g with pk := g.pk ++ [a.fieldName] } else g
  let g := if a.references then { g with fk := g.fk ++ [a.fieldName] } else g
  let g := if a.autoGenerated then { g with auto := g.auto ++ [a.fieldName] } else g
  if a.typeKey = "VIRTUAL" then { g with virtual := g.virtual ++ [a.fieldName] }
  else if a.typeKey = "BLOB" then { g with blob := g.blob ++ [a.fieldName] }
  else if DOC_DB_TYPES.contains a.typeKey then { g with doc := g.doc ++ [a.fieldName] }
  else g

/-- src/index.js lines 215-248, `_collectAttrs`: bucket raw attributes (after
the optional `attrFilter`, which skips an attribute exactly when it returns
`false`), then collect association aliases. -/
def _collectAttrs (model : JModel) (options : OptionsIn) : AttrGroups :=
  let g := model.rawAttributes.foldl
    (fun g p =>
      if options.attrFilter.elim false (fun f => f p.2 == false) then g
      else classifyOne g p.2)
    {}
  { g with assoc := model.associations.foldl (fun l p => l ++ [p.2.as]) g.assoc }

/-! ## Attribute list compilation -/

/-- `this._attr[key]`: the group selected by an `@`-selector; an unknown key
reads an `undefined` member off the groups object. -/
def groupOf (g : AttrGroups) : String → Option (List String)
  | "all" => some g.all
  | "virtual" => some g.virtual
  | "pk" => some g.pk
  | "fk" => some g.fk
  | "assoc" => some g.assoc
  | "blob" => some g.blob
  | "doc" => some g.doc
  | "auto" => some g.auto
  | _ => none

/-- `_.uniq` with an explicit seen-set: keeps the first occurrence of every
element (elements are strings or the JS `undefined` produced by an unknown
selector, embedded as `none`). -/
def jsUniqAux (seen : List (Option String)) : List (Option String) → List (Option String)
  | [] => []
  | x :: xs => if x ∈ seen then jsUniqAux seen xs else x :: jsUniqAux (x :: seen) xs

def jsUniq (l : List (Option String)) : List (Option String) :=
  jsUniqAux [] l

/-- The loop of `_expandAttributes` (src/index.js lines 254-260): an
`@`-selector replaces `result` by `result.concat(result, group)` — the
self-concatenation noted in the spec's design notes — where an unknown
selector contributes the single element `undefined`; any other entry is
pushed literally. -/
def expandGo (g : AttrGroups) (res : List (Option String)) :
    List String → List (Option String)
  | [] => res
  | a :: rest =>
    if strStartsWith a '@' then
      match groupOf g (strTail a) with
      | some grp => expandGo g (res ++ res ++ grp.map some) rest
      | none => expandGo g (res ++ res ++ [none]) rest
    else expandGo g (res ++ [some a]) rest

/-- src/index.js lines 250-263, `_expandAttributes`: expand selectors, then
`_.uniq`. -/
def _expandAttributes (g : AttrGroups) (list : List String) : List (Option String) :=
  jsUniq (expandGo g [] list)

/-- The ad-hoc marker rewrite applied to every surviving include entry
(src/index.js line 273): a name that is not dot-prefixed and is neither a
model attribute nor an association alias is rewritten to `'.' + name`. -/
def rewriteAttr (g : AttrGroups) (a : String) : String :=
  if strStartsWith a '.' = false ∧ a ∉ g.all ∧ a ∉ g.assoc then "." ++ a else a

/-- The loop of `_compileAttributesList` (src/index.js lines 271-275): keep
include entries not present in the exclude expansion, applying the marker
rewrite; reading `a[0]` off the `undefined` left by an unknown selector is a
TypeError. -/
def compileGo (g : AttrGroups) (exc : List (Option String)) (acc : List String) :
    List (Option String) → Except String (List String)
  | [] => .ok acc
  | a :: rest =>
    if a ∈ exc then compileGo g exc acc rest
    else
      match a with
      | some s => compileGo g exc (acc ++ [rewriteAttr g s]) rest
      | none => .error "TypeError: Cannot read properties of undefined"

/-- The expanded include list of `_compileAttributesList`: expansion of
`scheme.include` when present, else the whole `all` group. -/
def expandedInclude (g : AttrGroups) (scheme : JScheme) : List (Option String) :=
  match scheme.include? with
  | some l => _expandAttributes g l
  | none => g.all.map some

/-- The expanded exclude list of `_compileAttributesList`: expansion of
`scheme.exclude` when present, else empty. -/
def expandedExclude (g : AttrGroups) (scheme : JScheme) : List (Option String) :=
  match scheme.exclude with
  | some l => _expandAttributes g l
  | none => []

/-- src/index.js lines 265-278, `_compileAttributesList`. -/
def _compileAttributesList (g : AttrGroups) (scheme : JScheme) : Except String (List String) :=
  compileGo g (expandedExclude g scheme) [] (expandedInclude g scheme)

/-! ## Scheme resolution and the `Serializer` constructor -/

/-- src/index.js lines 98-104, `_getSchemeFromModel`: look the name up in
`model.serializer.schemes`; the `|| null` and the no-configuration path both
yield null, embedded as `none`. -/
def _getSchemeFromModel (model : JModel) (scheme : String) : Option JScheme :=
  match model.serializer with
  | some cfg =>
    match cfg.schemes with
    | some schemes => jsLookup schemes scheme
    | none => none
  | none => none

/-- The JS value held by the constructor's `scheme` variable after resolution:
`undefined`, `null`, or a scheme object (the distinction shows in the
validation error message). -/
inductive SchemeVal where
  | undef
  | null
  | obj (s : JScheme)

/-- Modelled from the spec: one step of `deepMerge` (src/index.js lines 78-96)
restricted to options objects — scalar keys of the later source overwrite,
the nested `encoderOptions` object merges key-wise. -/
def mergeOptsOver (x y : OptionsIn) : OptionsIn where
  encoder := y.encoder <|> x.encoder
  undefinedPolicy := y.undefinedPolicy <|> x.undefinedPolicy
  copyJSONFields := y.copyJSONFields <|> x.copyJSONFields
  simpleDates := y.simpleDates <|> x.simpleDates
  encoderOptions :=
    match x.encoderOptions, y.encoderOptions with
    | some a, some b => some { blobEncoding := b.blobEncoding <|> a.blobEncoding }
    | _, some b => some b
    | a, none => a
  attrFilter := y.attrFilter <|> x.attrFilter

mutual

/-- Structural counterpart of `deepMerge` (src/index.js lines 78-96) on two
scheme objects: keys of the later source are merged into the accumulated
result — arrays (`include`/`exclude`) concatenate, nested objects (`assoc`,
`as`, `options`) merge key-wise, scalars (names, hooks) overwrite. -/
def mergeScheme2 : JScheme → JScheme → JScheme
  | .mk i1 e1 a1 s1 o1 p1, .mk i2 e2 a2 s2 o2 p2 =>
    .mk
      (match i1, i2 with
       | some a, some b => some (a ++ b)
       | _, some b => some b
       | a, none => a)
      (match e1, e2 with
       | some a, some b => some (a ++ b)
       | _, some b => some b
       | a, none => a)
      (match a1, a2 with
       | some a, some b => some (mergeAssocInto a b)
       | _, some b => some b
       | a, none => a)
      (match s1, s2 with
       | some a, some b => some (b.foldl (fun acc kv => jsSet acc kv.1 kv.2) a)
       | _, some b => some b
       | a, none => a)
      (match o1, o2 with
       | some a, some b => some (mergeOptsOver a b)
       | _, some b => some b
       | a, none => a)
      (match p2 with
       | some p => some p
       | none => p1)

/-- Merge the later source's `assoc` entries into the accumulated `assoc` map. -/
def mergeAssocInto (acc : List (String × JSchemeRef)) :
    List (String × JSchemeRef) → List (String × JSchemeRef)
  | [] => acc
  | (k, v) :: rest =>
    mergeAssocInto
      (match jsLookup acc k with
       | some old => jsSet acc k (mergeRef2 old v)
       | none => jsSet acc k v)
      rest

/-- Merging two `assoc` values: two name lists concatenate (arrays), two
inline schemes merge recursively (objects), anything else is overwritten by
the later entry. -/
def mergeRef2 : JSchemeRef → JSchemeRef → JSchemeRef
  | .byNames a, .byNames b => .byNames (a ++ b)
  | .inline a, .inline b => .inline (mergeScheme2 a b)
  | _, b => b

end

/-- `deepMerge(sources)` over looked-up schemes for a name-list reference:
starts from a fresh `{}`; an `undefined` entry (unknown name) contributes no
keys. -/
def deepMergeSchemes (sources : List (Option JScheme)) : JScheme :=
  sources.foldl
    (fun res s =>
      match s with
      | some sc => mergeScheme2 res sc
      | none => res)
    emptyScheme

/-- A constructed serializer engine: the state stored on `this` by the
constructor (src/index.js lines 185-212). -/
structure Engine where
  model : JModel
  scheme : JScheme
  schemeName : Option String
  origOptions : Option OptionsIn
  options : OptionsIn
  attr : AttrGroups
  attrList : List String
  attrPath : Option String

/-- src/index.js lines 142-213, the `Serializer` constructor.  The model
argument is a valid model by the type of the embedding, so the `_isModel`
guard passes.  `defaults` is the current value of the process-wide
`_defaultOptions` table, read at construction time. -/
def mkSerializer (defaults : OptionsIn) (model : JModel) (scheme : JSchemeRef)
    (options : Option OptionsIn) : Except String Engine :=
  let resolved : Option String × SchemeVal :=
    match scheme with
    | .byNames names =>
      (some (String.intercalate "_" names),
       match model.serializer with
       | some cfg =>
         match cfg.schemes with
         | some schemes => .obj (deepMergeSchemes (names.map (fun n => jsLookup schemes n)))
         | none => .null
       | none => .null)
    | .byName s =>
      (some s,
       match _getSchemeFromModel model s with
       | some sc => .obj sc
       | none => .null)
    | .absent =>
      (match model.serializer with
       | some cfg =>
         match cfg.defaultScheme with
         | some ds =>
           (some ds,
            match jsLookup (cfg.schemes.getD []) ds with
            | some sc => .obj sc
            | none => .undef)
         | none =>
           match jsLookup (cfg.schemes.getD []) "default" with
           | some d => (some "default", .obj d)
           | none => (none, .obj emptyScheme)
       | none => (none, .obj emptyScheme))
    | .inline s => (none, .obj s)
  match resolved with
  | (schemeName, .obj sc) =>
    let merged := mergeOptions
      [options.getD {}, sc.options.getD {},
       (model.serializer.bind (fun cfg => cfg.options)).getD {}, defaults]
    let attr := _collectAttrs model merged
    match _compileAttributesList attr sc with
    | .ok attrList =>
      .ok { model := model, scheme := sc, schemeName := schemeName,
            origOptions := options, options := merged, attr := attr,
            attrList := attrList, attrPath := none }
    | .error e => .error e
  | (_, .null) => .error ("Invalid serialization scheme for " ++ model.name ++ ": null")
  | (_, .undef) => .error ("Invalid serialization scheme for " ++ model.name ++ ": undefined")

/-- `options.encoderOptions.blobEncoding` read through both optional layers. -/
def getBlob (o : OptionsIn) : Option String :=
  o.encoderOptions.bind (fun e => e.blobEncoding)

/-- Concrete stand-in for `Buffer#toString` used by closed examples. -/
def bufToStr0 : BufToStr := fun _ _ => ""

/-- The initial value of the global default-options table, instantiated. -/
def defaults0 : OptionsIn := _defaultOptions bufToStr0

/-- Model used by closed examples: no `serializer` configuration at all. -/
def mC1 : JModel where
  name := "M"
  rawAttributes := [("id", { fieldName := "id", primaryKey := true }), ("title", { fieldName := "title" })]

/-- Scheme used by the C4 witness: scheme-level options set `blobEncoding`. -/
def schC4 : JScheme :=
  .mk none none none none (some { encoderOptions := some { blobEncoding := some "hex" } }) none

/-- Constructor options used by the C4 witness: they set the policy. -/
def optsC4 : OptionsIn := { undefinedPolicy := some POLICY_SET_NULL }

/-! ## The serializer runtime (src/index.js lines 280-392)

The serializer's only non-structural recursion is the construction of child
serializers for associated instances; the embedding bounds that recursion by
an explicit `fuel` on association depth (`serializeAssoc` is the single point
that consumes fuel).  The engine cache is threaded as a value: `Option Cache`
mirrors the optional `cache` argument. -/

/-- The engine cache: association-path string to serializer engine
(a plain JS object in the source). -/
abbrev Cache := List (String × Engine)

/-- The closed world of model classes, resolving `inst.constructor`
(`_getModelFromInstance`) by the instance's model name. -/
abbrev ModelRegistry := List (String × JModel)

/-- `typeof value === 'function' ? value.call(inst) : value` (src/index.js
lines 348-350): a method found by property access is called with no
arguments. -/
def callUnwrap : JSVal → JSVal
  | .vfunc r => r
  | v => v

/-- `inst.get(a)`: the record's field accessor. -/
def instGet (inst : JSVal) (a : String) : JSVal :=
  match inst with
  | .vinst _ data _ => (jsLookup data a).getD .vundefined
  | _ => .vundefined

/-- `inst[a]`: direct property access. -/
def instProp (inst : JSVal) (a : String) : JSVal :=
  match inst with
  | .vinst _ _ props => (jsLookup props a).getD .vundefined
  | _ => .vundefined

/-- Strip the leading ad-hoc marker dot (src/index.js line 345). -/
def stripDot (a : String) : String :=
  if strStartsWith a '.' then strTail a else a

/-- `a[0] !== '.' && this._attr.all.indexOf(a) > -1` (src/index.js line 342):
the entry is served by the field accessor. -/
def isGenuineAttr (e : Engine) (a : String) : Bool :=
  !strStartsWith a '.' && e.attr.all.contains a

/-- The attribute name after the serve-loop's possible dot strip — the name
used for the `as` lookup, the attribute-definition lookup and error
messages. -/
def servedName (e : Engine) (a : String) : String :=
  if isGenuineAttr e a then a else stripDot a

/-- The raw value the serve loop obtains for a compiled entry: field accessor
for genuine attributes, direct property access (calling methods) otherwise
(src/index.js lines 342-351). -/
def fetchValue (e : Engine) (inst : JSVal) (a : String) : JSVal :=
  if isGenuineAttr e a then instGet inst a
  else callUnwrap (instProp inst (stripDot a))

/-- `(this._scheme.as ? this._scheme.as[a] : null) || a` (src/index.js line
353); an empty-string rename is falsy and falls back to the attribute name. -/
def outName (e : Engine) (a' : String) : String :=
  match e.scheme.as with
  | some m =>
    match jsLookup m a' with
    | some s => if s = "" then a' else s
    | none => a'
  | none => a'

/-- `_isSpecificModelInstance` for the embedding: an instance of exactly this
model class (subclassing is not modelled). -/
def isInstanceOf (inst : JSVal) (m : JModel) : Bool :=
  match inst with
  | .vinst n _ _ => n = m.name
  | _ => false

/-- The `YYYY-MM-DD` formatting of a DATEONLY value (src/index.js line 308). -/
def formatSimpleDate (y : Int) (mo0 day : Nat) : String :=
  toString y ++ "-" ++ _padWith0 (mo0 + 1) ++ "-" ++ _padWith0 day

/-- `this._scheme.assoc ? this._scheme.assoc[attr] : null` (src/index.js line
322): the scheme reference for an associated instance. -/
def assocSchemeRef (sch : JScheme) (attr : String) : JSchemeRef :=
  match sch.assoc with
  | some m => (jsLookup m attr).getD .absent
  | none => .absent

/-- `(this._attrPath ? this._attrPath + '.' : '') + attr` (src/index.js line
316). -/
def attrPathOf (e : Engine) (attr : String) : String :=
  (match e.attrPath with
   | some p => p ++ "."
   | none => "") ++ attr

/-- Construction of a child serializer for an associated instance
(src/index.js lines 324-325): `new Serializer(model-of-instance,
scheme.assoc[attr], this._origOptions)` with `_attrPath` set.  The instance's
model class is resolved through the closed-world registry. -/
def buildChild (reg : ModelRegistry) (defaults : OptionsIn) (e : Engine) (attr : String)
    (instModelName : String) : Except String Engine :=
  match jsLookup reg instModelName with
  | some m => do
    let s ← mkSerializer defaults m (assocSchemeRef e.scheme attr) e.origOptions
    .ok { s with attrPath := some (attrPathOf e attr) }
  | none => .error ("Unknown model " ++ instModelName)

/-- `returnJSON` of `_serializeValue` (src/index.js lines 282-287): the
attribute exists, `copyJSONFields` is truthy and the type is JSON (JSONB is
`instanceof` JSON in Sequelize, so both keys qualify). -/
def copiesJSON (e : Engine) (attr : String) : Bool :=
  match jsLookup e.model.rawAttributes attr with
  | some ad =>
    e.options.copyJSONFields.getD false && (ad.typeKey == "JSON" || ad.typeKey == "JSONB")
  | none => false

/-- The scalar tail of `_serializeValue` (src/index.js lines 305-312):
DATEONLY simplification when `simpleDates` is truthy, then the configured
encoder with the configured encoder options; calling an absent encoder is a
JS TypeError. -/
def simpleDateAdjust (e : Engine) (attr : String) (v : JSVal) : JSVal :=
  if e.options.simpleDates.getD false then
    match jsLookup e.model.rawAttributes attr, v with
    | some ad, .vdate y mo0 day iso =>
      if ad.typeKey = "DATEONLY" then .vstr (formatSimpleDate y mo0 day)
      else .vdate y mo0 day iso
    | _, _ => v
  else v

def encodeScalar (e : Engine) (attr : String) (v : JSVal) (cache : Option Cache) :
    Except String (JSVal × Option Cache) :=
  match e.options.encoder with
  | some f =>
    match f (simpleDateAdjust e attr v) e.options.encoderOptions with
    | .ok r => .ok (r, cache)
    | .error msg => .error msg
  | none => .error "TypeError: this._options.encoder is not a function"

mutual

/-- src/index.js lines 333-381, `serialize(inst, cache)`: check the instance,
serve every compiled attribute into the output object, then run the
model-wide and scheme-level post-hooks in that order. -/
def serializeInst (reg : ModelRegistry) (defaults : OptionsIn) (fuel : Nat) (e : Engine)
    (inst : JSVal) (cache : Option Cache) : Except String (JSVal × Option Cache) :=
  if isInstanceOf inst e.model then do
    let (out, cache') ← serializeAttrs reg defaults fuel e inst e.attrList [] cache
    let out1 : JSVal :=
      match e.model.serializer.bind (fun c => c.postSerialize) with
      | some hook => hook (.vobj out) inst e.schemeName
      | none => .vobj out
    let out2 : JSVal :=
      match e.scheme.postSerialize with
      | some hook => hook out1 inst
      | none => out1
    .ok (out2, cache')
  else .error ("Not an instance of " ++ e.model.name)

/-- The serve loop of `serialize` (src/index.js lines 340-370): obtain the raw
value, rename, and either serialize it or apply the undefined-value policy. -/
def serializeAttrs (reg : ModelRegistry) (defaults : OptionsIn) (fuel : Nat) (e : Engine)
    (inst : JSVal) (attrs : List String) (out : List (String × JSVal))
    (cache : Option Cache) : Except String (List (String × JSVal) × Option Cache) :=
  match attrs with
  | [] => .ok (out, cache)
  | a :: rest =>
    let a' := servedName e a
    let value := fetchValue e inst a
    let name := outName e a'
    if jsTypeof value ≠ "undefined" then do
      let (sv, cache') ← serializeValue reg defaults fuel e a' value cache
      serializeAttrs reg defaults fuel e inst rest (jsSet out name sv) cache'
    else
      if e.options.undefinedPolicy = some POLICY_SKIP then
        serializeAttrs reg defaults fuel e inst rest out cache
      else if e.options.undefinedPolicy = some POLICY_SET_NULL then
        serializeAttrs reg defaults fuel e inst rest (jsSet out name .vnull) cache
      else if e.options.undefinedPolicy = some POLICY_FAIL then
        .error ("Undefined attribute on " ++ e.model.name ++ " instance: " ++ a')
      else .error "Invalid undefinedPolicy setting"

/-- src/index.js lines 280-313, `_serializeValue`: JSON/JSONB fields are
copied verbatim when `copyJSONFields` is set; plain arrays are serialized
element-wise; model instances recurse through association handling; DATEONLY
dates are simplified when `simpleDates` is set; everything else goes to the
configured encoder with the configured encoder options. -/
def serializeValue (reg : ModelRegistry) (defaults : OptionsIn) (fuel : Nat) (e : Engine)
    (attr : String) (value : JSVal) (cache : Option Cache) :
    Except String (JSVal × Option Cache) :=
  if copiesJSON e attr then .ok (value, cache)
  else
    match value with
    | .varr .array elems => do
      let (es, cache') ← serializeValueList reg defaults fuel e attr elems cache
      .ok (.varr .array es, cache')
    | .vinst mn data props =>
      serializeAssoc reg defaults fuel e attr (.vinst mn data props) cache
    | v =>
      match encodeScalar e attr v cache with
      | .ok r => .ok r
      | .error msg => .error msg

/-- Element-wise serialization of a plain-array value (src/index.js lines
295-299). -/
def serializeValueList (reg : ModelRegistry) (defaults : OptionsIn) (fuel : Nat) (e : Engine)
    (attr : String) (elems : List JSVal) (cache : Option Cache) :
    Except String (List JSVal × Option Cache) :=
  match elems with
  | [] => .ok ([], cache)
  | x :: xs => do
    let (y, c1) ← serializeValue reg defaults fuel e attr x cache
    let (ys, c2) ← serializeValueList reg defaults fuel e attr xs c1
    .ok (y :: ys, c2)

/-- src/index.js lines 315-331, `_serializeAssoc`: reuse the cached engine for
this association path, otherwise construct one (reading the current global
defaults) and cache it when a cache was supplied; then delegate, threading the
cache.  This is the single fuel-consuming recursion. -/
def serializeAssoc (reg : ModelRegistry) (defaults : OptionsIn) (fuel : Nat) (e : Engine)
    (attr : String) (inst : JSVal) (cache : Option Cache) :
    Except String (JSVal × Option Cache) :=
  match fuel with
  | 0 => .error "association depth fuel exhausted"
  | fuel' + 1 =>
    let attrPath := attrPathOf e attr
    match cache with
    | some c =>
      match jsLookup c attrPath with
      | some s => serializeInst reg defaults fuel' s inst (some c)
      | none =>
        match inst with
        | .vinst mn _ _ => do
          let s ← buildChild reg defaults e attr mn
          serializeInst reg defaults fuel' s inst (some (jsSet c attrPath s))
        | _ => .error "TypeError: not a model instance"
    | none =>
      match inst with
      | .vinst mn _ _ => do
        let s ← buildChild reg defaults e attr mn
        serializeInst reg defaults fuel' s inst none
      | _ => .error "TypeError: not a model instance"

end

/-- One independent serialization: construct an engine and serialize a single
record with no cache (`new Serializer(model, scheme, options).serialize(inst)`). -/
def serializeOne (reg : ModelRegistry) (defaults : OptionsIn) (fuel : Nat) (model : JModel)
    (scheme : JSchemeRef) (options : Option OptionsIn) (inst : JSVal) :
    Except String JSVal := do
  let s ← mkSerializer defaults model scheme options
  let (v, _) ← serializeInst reg defaults fuel s inst none
  .ok v

/-- The loop of `serializeMany` (src/index.js lines 387-389): one shared
engine, one shared cache threaded through all items.  The cache stays present
throughout a run (`serializeInst` never drops it); if it ever came back
absent the unchanged cache would be reused. -/
def serializeManyGo (reg : ModelRegistry) (defaults : OptionsIn) (fuel : Nat) (s : Engine) :
    List JSVal → Cache → Except String (List JSVal)
  | [], _ => .ok []
  | inst :: rest, cache => do
    let (v, c') ← serializeInst reg defaults fuel s inst (some cache)
    let vs ← serializeManyGo reg defaults fuel s rest (c'.getD cache)
    .ok (v :: vs)

/-- src/index.js lines 383-392, `Serializer.serializeMany`: construct exactly
one engine and one fresh cache, serialize every item in order. -/
def serializeMany (reg : ModelRegistry) (defaults : OptionsIn) (fuel : Nat)
    (data : List JSVal) (model : JModel) (scheme : JSchemeRef)
    (options : Option OptionsIn) : Except String (List JSVal) := do
  let s ← mkSerializer defaults model scheme options
  serializeManyGo reg defaults fuel s data []

/-- Two-model world shared by the closed examples: model `A` has a data field
`x` and a field `b` holding an associated `B` instance; model `B` has a data
field `y`. -/
def mA : JModel :=
  { name := "A", rawAttributes := [("x", { fieldName := "x" }), ("b", { fieldName := "b" })] }

def mB : JModel := { name := "B", rawAttributes := [("y", { fieldName := "y" })] }

def regAB : ModelRegistry := [("A", mA), ("B", mB)]

/-- A record of `A` whose `b` field holds a `B` instance. -/
def recAB : JSVal := .vinst "A" [("x", .vnum 7), ("b", .vinst "B" [("y", .vstr "hi")] [])] []

/-- A record of `A` with no association value (`b` is undefined). -/
def recFlat : JSVal := .vinst "A" [("x", .vnum 1)] []

/-- The engine `new Serializer(A)` builds under the initial defaults. -/
def eA : Engine :=
  ⟨mA, emptyScheme, none, none,
    ⟨some (fun v o => encodeToJSON bufToStr0 v o), some 2, some true, some true,
      some ⟨some "base64"⟩, none⟩,
    ⟨["x", "b"], [], [], [], [], [], [], []⟩, ["x", "b"], none⟩

/-- The engine `new Serializer(B)` builds under the initial defaults. -/
def eB : Engine :=
  ⟨mB, emptyScheme, none, none,
    ⟨some (fun v o => encodeToJSON bufToStr0 v o), some 2, some true, some true,
      some ⟨some "base64"⟩, none⟩,
    ⟨["y"], [], [], [], [], [], [], []⟩, ["y"], none⟩

/-- `eA` with the SET_NULL policy configured. -/
def eNull : Engine := { eA with options := { eA.options with undefinedPolicy := some POLICY_SET_NULL } }

/-- `eA` with the FAIL policy configured. -/
def eFail : Engine := { eA with options := { eA.options with undefinedPolicy := some POLICY_FAIL } }

/-- `eA` with an unrecognized `undefinedPolicy` value configured. -/
def eBad : Engine := { eA with options := { eA.options with undefinedPolicy := some 7 } }

mutual

/-- Values whose serialization can never reach `_serializeAssoc` (no model
instance at a position the value dispatcher routes to association handling:
the value itself, or nested through plain arrays). -/
def assocFreeVal : JSVal → Bool
  | .vinst _ _ _ => false
  | .varr .array elems => assocFreeList elems
  | _ => true

def assocFreeList : List JSVal → Bool
  | [] => true
  | x :: xs => assocFreeVal x && assocFreeList xs

end

/-- The process state the spec's frame sentence talks about: the mutable
process-wide defaults table plus the engines constructed so far. -/
structure SState where
  defaults : OptionsIn
  engines : List Engine

/-- Events of that process: constructing an engine (reading the current
defaults) and mutating the defaults table. -/
inductive SEvent where
  | construct (m : JModel) (scheme : JSchemeRef) (options : Option OptionsIn)
  | setDefaults (d : OptionsIn)

def stepState (s : SState) : SEvent → SState
  | .construct m sch o =>
    match mkSerializer s.defaults m sch o with
    | .ok e => { s with engines := s.engines ++ [e] }
    | .error _ => s
  | .setDefaults d => { s with defaults := d }

/-- Serialize one record with an already-constructed engine of the state;
child engines constructed during the run read the state's current defaults,
exactly as `_serializeAssoc` reads the live `_defaultOptions`. -/
def serializeInState (reg : ModelRegistry) (fuel : Nat) (s : SState) (i : Nat)
    (inst : JSVal) : Except String JSVal :=
  match s.engines[i]? with
  | some e => (serializeInst reg s.defaults fuel e inst none).map (fun p => p.1)
  | none => .error "no such engine"

/-- The defaults table after `Serializer.defaultOptions.undefinedPolicy =
Serializer.SET_NULL`. -/
def dNull : OptionsIn := { _defaultOptions bufToStr0 with undefinedPolicy := some POLICY_SET_NULL }

/-- A record of `A` whose `b` holds a `B` instance with `y` undefined. -/
def recAssoc : JSVal := .vinst "A" [("b", .vinst "B" [] [])] []

/-- The child engine for model `B` constructed under the mutated defaults. -/
def eBnull : Engine :=
  ⟨mB, emptyScheme, none, none,
    ⟨some (fun v o => encodeToJSON bufToStr0 v o), some 3, some true, some true,
      some ⟨some "base64"⟩, none⟩,
    ⟨["y"], [], [], [], [], [], [], []⟩, ["y"], none⟩

/-! ## A heap model for the in-place merge helpers

`deepMerge` (src/index.js lines 78-96) and the constructor's
`_.defaultsDeep` build their result by mutating a freshly allocated object.
To state that they do not mutate their sources, JS objects are modelled as
references into an explicit heap: the frame property says every
pre-existing heap cell is untouched and the result is a fresh reference. -/

/-- Heap-model primitive values (functions are opaque identifiers, copied by
reference). -/
inductive Prim where
  | pstr (s : String)
  | pnum (n : Int)
  | pbool (b : Bool)
  | pnull
  | pundefined
  | pfun (id : Nat)
deriving DecidableEq, Repr

/-- A heap-model JS value: a primitive or a reference to a heap object. -/
inductive HVal where
  | prim (p : Prim)
  | ref (r : Nat)
deriving DecidableEq, Repr

/-- A heap object: a plain object or an array. -/
inductive HObj where
  | obj (fields : List (String × HVal))
  | arr (elems : List HVal)
deriving DecidableEq, Repr

abbrev Heap := List HObj

def halloc (h : Heap) (o : HObj) : Heap × Nat := (h ++ [o], h.length)

def hget (h : Heap) (r : Nat) : Option HObj := h[r]?

def hset (h : Heap) (r : Nat) (o : HObj) : Heap := h.set r o

/-- `typeof x == 'object'` in the heap model (null included). -/
def isObjTy : HVal → Bool
  | .prim .pnull => true
  | .ref _ => true
  | _ => false

/-- `Array.isArray(x)`. -/
def isArrRef (h : Heap) : HVal → Bool
  | .ref r =>
    match hget h r with
    | some (.arr _) => true
    | _ => false
  | _ => false

def arrElems (h : Heap) : HVal → List HVal
  | .ref r =>
    match hget h r with
    | some (.arr es) => es
    | _ => []
  | _ => []

/-- `for (key in x)` with `hasOwnProperty`: the own enumerable properties —
object fields, array indices, string indices; primitives have none. -/
def enumProps (h : Heap) : HVal → List (String × HVal)
  | .ref r =>
    match hget h r with
    | some (.obj fs) => fs
    | some (.arr es) => es.enum.map (fun p => (toString p.1, p.2))
    | none => []
  | .prim (.pstr s) => s.data.enum.map (fun p => (toString p.1, .prim (.pstr (String.mk [p.2]))))
  | _ => []

/-- `res[k]` where `res` is an object reference. -/
def objGet (h : Heap) (r : Nat) (k : String) : HVal :=
  match hget h r with
  | some (.obj fs) => (jsLookup fs k).getD (.prim .pundefined)
  | _ => .prim .pundefined

/-- `res[k] = v` where `res` is an object reference. -/
def objSet (h : Heap) (r : Nat) (k : String) (v : HVal) : Heap :=
  match hget h r with
  | some (.obj fs) => hset h r (.obj (jsSet fs k v))
  | _ => h

mutual

/-- Modelled from the spec: `_.cloneDeep` of the vendored lodash build —
a structural copy into fresh allocations; primitives (functions included)
are returned as-is.  Cyclic structures are out of fuel. -/
def cloneDeepH (fuel : Nat) (h : Heap) (v : HVal) : Heap × HVal :=
  match fuel with
  | 0 => (h, v)
  | fuel + 1 =>
    match v with
    | .prim p => (h, .prim p)
    | .ref r =>
      match hget h r with
      | some (.obj fs) =>
        let (h1, fs1) := cloneFieldsH fuel h fs
        let (h2, r1) := halloc h1 (.obj fs1)
        (h2, .ref r1)
      | some (.arr es) =>
        let (h1, es1) := cloneListH fuel h es
        let (h2, r1) := halloc h1 (.arr es1)
        (h2, .ref r1)
      | none => (h, v)

def cloneFieldsH (fuel : Nat) (h : Heap) : List (String × HVal) → Heap × List (String × HVal)
  | [] => (h, [])
  | (k, v) :: rest =>
    let (h1, v1) := cloneDeepH fuel h v
    let (h2, rest1) := cloneFieldsH fuel h1 rest
    (h2, (k, v1) :: rest1)

def cloneListH (fuel : Nat) (h : Heap) : List HVal → Heap × List HVal
  | [] => (h, [])
  | v :: rest =>
    let (h1, v1) := cloneDeepH fuel h v
    let (h2, rest1) := cloneListH fuel h1 rest
    (h2, v1 :: rest1)

end

mutual

/-- src/index.js lines 78-96, `deepMerge(sources)`, in the heap model: a
fresh result object accumulates the keys of every source in order — two
arrays concatenate into a fresh array, two `typeof object` values merge
recursively through a fresh `deepMerge`, anything else overwrites with a
deep clone. -/
def deepMergeH (fuel : Nat) (h : Heap) (sources : List HVal) : Heap × Nat :=
  match fuel with
  | 0 => halloc h (.obj [])
  | fuel + 1 =>
    let (h1, res) := halloc h (.obj [])
    (mergeSourcesH fuel h1 res sources, res)

/-- The `for (let object of sources)` loop. -/
def mergeSourcesH (fuel : Nat) (h : Heap) (res : Nat) : List HVal → Heap
  | [] => h
  | src :: rest =>
    let h1 := mergeKeysH fuel h res (enumProps h src)
    mergeSourcesH fuel h1 res rest

/-- The `for (key in object)` loop. -/
def mergeKeysH (fuel : Nat) (h : Heap) (res : Nat) : List (String × HVal) → Heap
  | [] => h
  | (k, v) :: rest =>
    let rk := objGet h res k
    let h1 :=
      if isArrRef h v && isArrRef h rk then
        let (h2, rnew) := halloc h (.arr (arrElems h rk ++ arrElems h v))
        objSet h2 res k (.ref rnew)
      else if isObjTy v && isObjTy rk then
        let (h2, rm) := deepMergeH fuel h [rk, v]
        objSet h2 res k (.ref rm)
      else
        let (h2, cv) := cloneDeepH fuel h v
        objSet h2 res k cv
    mergeKeysH fuel h1 res rest

end

mutual

/-- Modelled from the spec: `_.defaultsDeep({}, s1, s2, ...)` in the heap
model — a fresh result object fills in, from each source in precedence
order, only the keys still absent, merging recursively when both sides are
objects. -/
def defaultsDeepH (fuel : Nat) (h : Heap) (sources : List HVal) : Heap × Nat :=
  match fuel with
  | 0 => halloc h (.obj [])
  | fuel + 1 =>
    let (h1, res) := halloc h (.obj [])
    (defaultsSourcesH fuel h1 res sources, res)

def defaultsSourcesH (fuel : Nat) (h : Heap) (res : Nat) : List HVal → Heap
  | [] => h
  | src :: rest =>
    let h1 := defaultsKeysH fuel h res (enumProps h src)
    defaultsSourcesH fuel h1 res rest

def defaultsKeysH (fuel : Nat) (h : Heap) (res : Nat) : List (String × HVal) → Heap
  | [] => h
  | (k, v) :: rest =>
    let rk := objGet h res k
    let h1 :=
      if rk = .prim .pundefined then
        let (h2, cv) := cloneDeepH fuel h v
        objSet h2 res k cv
      else if isObjTy v && isObjTy rk then
        let (h2, rm) := defaultsDeepH fuel h [rk, v]
        objSet h2 res k (.ref rm)
      else h
    defaultsKeysH fuel h1 res rest

end

/-- The frame relation: every heap cell below `n` still holds exactly what
`h0` holds there, and the heap has not shrunk below `n`. -/
def PreservedUpTo (n : Nat) (h0 h : Heap) : Prop :=
  n ≤ h.length ∧ ∀ i, i < n → h[i]? = h0[i]?

/-! ## Cache coupling for `serializeMany` (claim C6)

`serializeMany` shares one engine cache across all records; independent
serialization uses none.  The two agree when every engine the cached run
finds under a path key equals the engine the uncached run would build
fresh.  That holds when (a) association-path keys are unambiguous — every
served attribute name is a nonempty dot-free string, so the path string
determines the attribute chain — and (b) the collection is homogeneous
per path: the model of an associated instance is a function of its
attribute chain alone.  The counterexample below shows the claim fails
without (b). -/

/-- A usable path segment: nonempty and without the `.` separator. -/
def dotFree (s : String) : Bool :=
  !s.data.isEmpty && !(s.data.contains '.')

/-- Every segment of the (reversed) attribute chain is a usable path
segment. -/
def chainOK (r : List String) : Bool := r.all dotFree

/-- The association-path string of a reversed attribute chain:
`pathR [c, b, a] = "a.b.c"` (src/index.js line 316 builds it parent
first). -/
def pathR : List String → String
  | [] => ""
  | [a] => a
  | a :: r => pathR r ++ "." ++ a

/-- The fixed data of one `serializeMany` run: the model registry, the
defaults snapshot, the root constructor arguments, and the per-chain model
assignment `modelAt` (which model an associated instance at a given
reversed attribute chain has). -/
structure SerWorld where
  reg : ModelRegistry
  defaults : OptionsIn
  model : JModel
  scheme : JSchemeRef
  options : Option OptionsIn
  modelAt : List String → String

/-- The canonical engine of a reversed attribute chain: the root engine for
`[]`, and the child `_serializeAssoc` would build from the canonical parent
for `attr :: r` (src/index.js lines 322-325). -/
def canonEngineR (w : SerWorld) : List String → Except String Engine
  | [] => mkSerializer w.defaults w.model w.scheme w.options
  | a :: r => do
    let p ← canonEngineR w r
    buildChild w.reg w.defaults p a (w.modelAt (a :: r))

/-- A cache is canonical: every entry is the canonical engine of the chain
its path key spells. -/
def CacheCanon (w : SerWorld) (c : Cache) : Prop :=
  ∀ kv ∈ c, ∃ r : List String, r ≠ [] ∧ chainOK r = true ∧
    kv.1 = pathR r ∧ canonEngineR w r = .ok kv.2

/-- Every attribute name any canonical engine serves is a usable path
segment (no dots, nonempty) — the side condition making path keys
unambiguous. -/
def ServedOK (w : SerWorld) : Prop :=
  ∀ r e, canonEngineR w r = .ok e → ∀ a ∈ e.attrList, dotFree (servedName e a) = true

mutual

/-- Per-path model homogeneity of a value fetched at reversed chain `c`:
every model instance reachable through association handling (the value
itself, plain-array elements, and recursively the children fetched from an
instance's attribute store and properties) has the model `modelAt` assigns
to its chain. -/
def consValB (μ : List String → String) : List String → JSVal → Bool
  | c, .vinst mn data props =>
    (mn == μ c) && consFieldsB μ c data && consFieldsB μ c props
  | c, .varr _ elems => consListB μ c elems
  | c, .vfunc r => consValB μ c r
  | _, _ => true

def consFieldsB (μ : List String → String) : List String → List (String × JSVal) → Bool
  | _, [] => true
  | c, (k, w) :: rest => consValB μ (k :: c) w && consFieldsB μ c rest

def consListB (μ : List String → String) : List String → List JSVal → Bool
  | _, [] => true
  | c, w :: ws => consValB μ c w && consListB μ c ws

end

/-- The coupling between a cached and an uncached serializer run: same
value or same error; the uncached run carries no cache and the cached run
returns a canonical cache. -/
def LockstepG {α : Type} (w : SerWorld)
    (cached uncached : Except String (α × Option Cache)) : Prop :=
  match cached, uncached with
  | .ok (v, oc), .ok (v1, oc1) => v1 = v ∧ oc1 = none ∧ ∃ c1, oc = some c1 ∧ CacheCanon w c1
  | .error m, .error m1 => m1 = m
  | _, _ => False

/-- The three-model world of the C6 counterexample: `A`'s field `b` holds a
`B1` instance on one record and a `B2` instance on the other. -/
def mB1 : JModel := { name := "B1", rawAttributes := [("y", { fieldName := "y" })] }

def mB2 : JModel := { name := "B2", rawAttributes := [("y", { fieldName := "y" })] }

def regH : ModelRegistry := [("A", mA), ("B1", mB1), ("B2", mB2)]

/-- First record: `b` holds a `B1` instance. -/
def recH1 : JSVal := .vinst "A" [("x", .vnum 1), ("b", .vinst "B1" [("y", .vnum 2)] [])] []

/-- Second record: `b` holds a `B2` instance. -/
def recH2 : JSVal := .vinst "A" [("x", .vnum 3), ("b", .vinst "B2" [("y", .vnum 4)] [])] []

/-- The engine `new Serializer(B1)` builds under the initial defaults
(before `_serializeAssoc` assigns `_attrPath`). -/
def eB1 : Engine :=
  ⟨mB1, emptyScheme, none, none,
    ⟨some (fun v o => encodeToJSON bufToStr0 v o), some 2, some true, some true,
      some ⟨some "base64"⟩, none⟩,
    ⟨["y"], [], [], [], [], [], [], []⟩, ["y"], none⟩

/-- The engine `new Serializer(B2)` builds under the initial defaults. -/
def eB2 : Engine :=
  ⟨mB2, emptyScheme, none, none,
    ⟨some (fun v o => encodeToJSON bufToStr0 v o), some 2, some true, some true,
      some ⟨some "base64"⟩, none⟩,
    ⟨["y"], [], [], [], [], [], [], []⟩, ["y"], none⟩

/-- The chain-model assignment of the homogeneous two-model world `regAB`
(used by the amended-theorem witness): records are `A`, the `b` child is
`B`, every other chain maps to an unregistered name. -/
def muAB : List String → String :=
  fun c => if c = [] then "A" else if c = ["b"] then "B" else "?"

/-- The `SerWorld` of the amended-theorem witness. -/
def wAB : SerWorld :=
  { reg := regAB, defaults := defaults0, model := mA, scheme := .absent,
    options := none, modelAt := muAB }

/-! SERIAL_DEFS_HERE -/

/-! ## Helper lemmas -/

theorem classifyOne_all (g : AttrGroups) (a : JAttrDef) :
    (classifyOne g a).all = g.all ++ [a.fieldName] := by
  simp only [classifyOne]
  split_ifs <;> rfl

theorem foldl_classify_all (l : List (String × JAttrDef)) :
    ∀ (g : AttrGroups),
      (l.foldl (fun g p => classifyOne g p.2) g).all = g.all ++ l.map (fun p => p.2.fieldName) := by
  induction l with
  | nil => intro g; simp
  | cons p rest ih =>
    intro g
    simp [List.foldl_cons, ih, classifyOne_all]

theorem collectAttrs_all (m : JModel) (opts : OptionsIn) (h : opts.attrFilter = none) :
    (_collectAttrs m opts).all = m.rawAttributes.map (fun p => p.2.fieldName) := by
  simp only [_collectAttrs, h, Option.elim]
  simpa using foldl_classify_all m.rawAttributes {}

theorem jsUniqAux_of_nodup (l : List (Option String)) :
    ∀ (seen : List (Option String)), l.Nodup → (∀ x ∈ l, x ∉ seen) → jsUniqAux seen l = l := by
  induction l with
  | nil => intro seen _ _; rfl
  | cons x xs ih =>
    intro seen hnd hdisj
    have hx : x ∉ seen := hdisj x (by simp)
    simp only [jsUniqAux, if_neg hx]
    congr 1
    refine ih (x :: seen) hnd.of_cons ?_
    intro y hy
    simp only [List.mem_cons]
    rintro (rfl | hys)
    · exact (List.nodup_cons.mp hnd).1 hy
    · exact hdisj y (by simp [hy]) hys

theorem jsUniq_of_nodup (l : List (Option String)) (h : l.Nodup) : jsUniq l = l :=
  jsUniqAux_of_nodup l [] h (by simp)

theorem compileGo_map_some (g : AttrGroups) (exc : List (Option String)) (l : List String) :
    ∀ (acc : List String),
      compileGo g exc acc (l.map some) =
        .ok (acc ++ (l.filter (fun s => !decide (some s ∈ exc))).map (rewriteAttr g)) := by
  induction l with
  | nil => intro acc; simp [compileGo]
  | cons s rest ih =>
    intro acc
    by_cases hm : some s ∈ exc
    · simp [compileGo, hm, ih]
    · simp [compileGo, hm, ih]

theorem compileGo_ok_eq (g : AttrGroups) (exc : List (Option String)) (l : List (Option String)) :
    ∀ (acc L : List String), compileGo g exc acc l = .ok L →
      L = acc ++ (l.filter (fun a => !decide (a ∈ exc))).filterMap (fun o => o.map (rewriteAttr g)) := by
  induction l with
  | nil =>
    intro acc L h
    simp only [compileGo] at h
    cases h
    simp
  | cons a rest ih =>
    intro acc L h
    by_cases hm : a ∈ exc
    · simp only [compileGo, if_pos hm] at h
      simpa [hm] using ih acc L h
    · match a with
      | some s =>
        simp only [compileGo, if_neg hm] at h
        have := ih (acc ++ [rewriteAttr g s]) L h
        rw [this]
        simp [hm]
      | none =>
        simp [compileGo, if_neg hm] at h

theorem rewriteAttr_mem_all (g : AttrGroups) (s : String) (h : s ∈ g.all) :
    rewriteAttr g s = s := by
  simp [rewriteAttr, h]

/-! ## Claim C1 -/

/-- C1, counterexample: constructing a serializer for a valid model with a
string scheme reference `"detailed"` that names no scheme (the model declares
no serializer configuration) does not succeed — it throws the configuration
error, because the looked-up null scheme fails the final object check
(src/index.js line 181). -/
theorem unknownNamedScheme_claim_counterexample :
    mkSerializer defaults0 mC1 (.byName "detailed") none =
      .error "Invalid serialization scheme for M: null" := by rfl

/-- C1 (corrected): for every model and every string scheme reference naming a
scheme absent from the model's scheme map (including when the model declares
no serializer configuration), construction fails with the configuration error
`Invalid serialization scheme for <model>: null`; the null scheme does not
fall through to the empty scheme. -/
theorem unknownNamedScheme_constructor_errors (defaults : OptionsIn) (model : JModel)
    (s : String) (options : Option OptionsIn) (h : _getSchemeFromModel model s = none) :
    mkSerializer defaults model (.byName s) options =
      .error ("Invalid serialization scheme for " ++ model.name ++ ": null") := by
  simp [mkSerializer, h]

/-- Witness for C1: the corrected theorem applied at a concrete model and name. -/
theorem unknownNamedScheme_constructor_errors_witness :
    _getSchemeFromModel mC1 "detailed" = none ∧
      mkSerializer defaults0 mC1 (.byName "detailed") none =
        .error ("Invalid serialization scheme for " ++ mC1.name ++ ": null") :=
  ⟨rfl, unknownNamedScheme_constructor_errors defaults0 mC1 "detailed" none rfl⟩

/-! ## Claim C2 -/

/-- C2 (confirmed): for every model with distinct attribute field names (field
names are keys of a JS object in Sequelize, hence distinct) and an engine
whose effective options carry no `attrFilter`, compiling a scheme whose
include list is `['@all']` or absent, with exclude `[]` or absent, yields
exactly the model's data fields, once each, in declared attribute order. -/
theorem allSelector_compiles_to_declared_fields (m : JModel) (opts : OptionsIn)
    (sch : JScheme) (hf : opts.attrFilter = none)
    (hn : (m.rawAttributes.map (fun p => p.2.fieldName)).Nodup)
    (hi : sch.include? = some ["@all"] ∨ sch.include? = none)
    (he : sch.exclude = some [] ∨ sch.exclude = none) :
    _compileAttributesList (_collectAttrs m opts) sch =
      .ok (m.rawAttributes.map (fun p => p.2.fieldName)) := by
  set g := _collectAttrs m opts with hg
  have hall : g.all = m.rawAttributes.map (fun p => p.2.fieldName) :=
    collectAttrs_all m opts hf
  have hnodup : g.all.Nodup := by rw [hall]; exact hn
  have hinc : expandedInclude g sch = g.all.map some := by
    rcases hi with hi | hi
    · have hsw : strStartsWith "@all" '@' = true := by decide
      have hdr : strTail "@all" = "all" := by decide
      simp only [expandedInclude, hi, _expandAttributes, expandGo, hsw, if_pos, hdr, groupOf]
      simp only [List.nil_append]
      exact jsUniq_of_nodup _ (hnodup.map (fun _ _ h => Option.some_injective _ h))
    · simp [expandedInclude, hi]
  have hexc : expandedExclude g sch = [] := by
    rcases he with he | he
    · simp [expandedExclude, he, _expandAttributes, expandGo, jsUniq, jsUniqAux]
    · simp [expandedExclude, he]
  rw [_compileAttributesList, hinc, hexc, compileGo_map_some]
  have hfa : g.all.filter (fun s => !decide (some s ∈ ([] : List (Option String)))) = g.all := by
    simp
  rw [hfa]
  have hmap : g.all.map (rewriteAttr g) = g.all := by
    have h1 : g.all.map (rewriteAttr g) = g.all.map id :=
      List.map_congr_left (fun s hs => rewriteAttr_mem_all g s hs)
    simpa using h1
  rw [hmap, hall]
  simp

/-- Witness for C2: the theorem applied at a concrete two-field model. -/
theorem allSelector_compiles_to_declared_fields_witness :
    defaults0.attrFilter = none ∧
      (mC1.rawAttributes.map (fun p => p.2.fieldName)).Nodup ∧
      _compileAttributesList (_collectAttrs mC1 defaults0)
          (JScheme.mk (some ["@all"]) (some []) none none none none) =
        .ok (mC1.rawAttributes.map (fun p => p.2.fieldName)) :=
  ⟨rfl, by decide,
    allSelector_compiles_to_declared_fields mC1 defaults0 _ rfl (by decide)
      (Or.inl rfl) (Or.inl rfl)⟩

/-! ## Claim C3 -/

/-- C3, counterexample: with attributes `{id, title}`, include `['.x', 'x']`
and exclude `['.x']`, the name `.x` appears in both expanded lists, yet the
compiled attribute list is exactly `['.x']` — the surviving literal `x` is
rewritten to the ad-hoc marker `'.x'`, so a name present in both expansions
is not absent from the compiled list. -/
theorem excludedName_survives_counterexample :
    some ".x" ∈ _expandAttributes (_collectAttrs mC1 defaults0) [".x", "x"] ∧
      some ".x" ∈ _expandAttributes (_collectAttrs mC1 defaults0) [".x"] ∧
      _compileAttributesList (_collectAttrs mC1 defaults0)
          (JScheme.mk (some [".x", "x"]) (some [".x"]) none none none none) =
        .ok [".x"] :=
  ⟨by decide, by decide, by rfl⟩

/-- C3 (corrected): names present in both expansions are dropped, and the
compiled list is exactly the ordered set-difference include − exclude of the
expansions, each survivor passed through the ad-hoc marker rewrite (so an
excluded name can still occur textually as the rewrite `'.' + n` of a
different surviving name `n`, as the counterexample shows); in particular the
surviving entries preserve the relative order of the expanded include list. -/
theorem compile_is_ordered_difference (g : AttrGroups) (sch : JScheme) (L : List String)
    (h : _compileAttributesList g sch = .ok L) :
    L = ((expandedInclude g sch).filter
          (fun a => !decide (a ∈ expandedExclude g sch))).filterMap
        (fun o => o.map (rewriteAttr g)) := by
  simpa using compileGo_ok_eq g (expandedExclude g sch) (expandedInclude g sch) [] L h

/-- Witness for C3: the corrected theorem applied at a concrete scheme. -/
theorem compile_is_ordered_difference_witness :
    _compileAttributesList (_collectAttrs mC1 defaults0)
        (JScheme.mk (some ["title", "x"]) (some ["x"]) none none none none) =
      .ok ["title"] ∧
    ["title"] =
      ((expandedInclude (_collectAttrs mC1 defaults0)
            (JScheme.mk (some ["title", "x"]) (some ["x"]) none none none none)).filter
          (fun a => !decide (a ∈ expandedExclude (_collectAttrs mC1 defaults0)
            (JScheme.mk (some ["title", "x"]) (some ["x"]) none none none none)))).filterMap
        (fun o => o.map (rewriteAttr (_collectAttrs mC1 defaults0))) :=
  ⟨by rfl, compile_is_ordered_difference _ _ _ (by rfl)⟩

/-! ## Claim C4 -/

theorem optOrElse_assoc {α : Type} (a b c : Option α) :
    ((a <|> b) <|> c) = (a <|> (b <|> c)) := by
  cases a <;> rfl

theorem optOrElse_none_left {α : Type} (a : Option α) : ((none : Option α) <|> a) = a := rfl

theorem getBlob_mergeOpts2 (hi lo : OptionsIn) :
    getBlob (mergeOpts2 hi lo) = (getBlob hi <|> getBlob lo) := by
  cases hhi : hi.encoderOptions <;> cases hlo : lo.encoderOptions <;>
    simp [getBlob, mergeOpts2, mergeEnc2, hhi, hlo, Option.bind]

theorem getBlob_empty : getBlob {} = none := rfl

theorem mergeOpts2_encoder (x y : OptionsIn) :
    (mergeOpts2 x y).encoder = (x.encoder <|> y.encoder) := rfl

theorem mergeOpts2_undefinedPolicy (x y : OptionsIn) :
    (mergeOpts2 x y).undefinedPolicy = (x.undefinedPolicy <|> y.undefinedPolicy) := rfl

theorem mergeOpts2_copyJSONFields (x y : OptionsIn) :
    (mergeOpts2 x y).copyJSONFields = (x.copyJSONFields <|> y.copyJSONFields) := rfl

theorem mergeOpts2_simpleDates (x y : OptionsIn) :
    (mergeOpts2 x y).simpleDates = (x.simpleDates <|> y.simpleDates) := rfl

theorem mergeOpts2_attrFilter (x y : OptionsIn) :
    (mergeOpts2 x y).attrFilter = (x.attrFilter <|> y.attrFilter) := rfl

/-- C4 (confirmed, lodash `defaultsDeep` modelled from the spec): the engine's
effective options are the highest-first deep merge of constructor options,
scheme options, model-wide options and the global defaults — key-wise, a key
set by a higher-precedence source hides the same key below, absent keys fall
through, and the nested `encoderOptions.blobEncoding` key falls through
deeply. -/
theorem effective_options_precedence (defaults : OptionsIn) (model : JModel)
    (sch : JScheme) (options : Option OptionsIn) (e : Engine)
    (h : mkSerializer defaults model (.inline sch) options = .ok e) :
    e.options = mergeOptions [options.getD {}, sch.options.getD {},
        (model.serializer.bind (fun c => c.options)).getD {}, defaults] ∧
    e.options.encoder = ((options.getD {}).encoder <|> ((sch.options.getD {}).encoder <|>
        (((model.serializer.bind (fun c => c.options)).getD {}).encoder <|>
          defaults.encoder))) ∧
    e.options.undefinedPolicy = ((options.getD {}).undefinedPolicy <|>
        ((sch.options.getD {}).undefinedPolicy <|>
        (((model.serializer.bind (fun c => c.options)).getD {}).undefinedPolicy <|>
          defaults.undefinedPolicy))) ∧
    e.options.copyJSONFields = ((options.getD {}).copyJSONFields <|>
        ((sch.options.getD {}).copyJSONFields <|>
        (((model.serializer.bind (fun c => c.options)).getD {}).copyJSONFields <|>
          defaults.copyJSONFields))) ∧
    e.options.simpleDates = ((options.getD {}).simpleDates <|>
        ((sch.options.getD {}).simpleDates <|>
        (((model.serializer.bind (fun c => c.options)).getD {}).simpleDates <|>
          defaults.simpleDates))) ∧
    e.options.attrFilter = ((options.getD {}).attrFilter <|>
        ((sch.options.getD {}).attrFilter <|>
        (((model.serializer.bind (fun c => c.options)).getD {}).attrFilter <|>
          defaults.attrFilter))) ∧
    getBlob e.options = (getBlob (options.getD {}) <|> (getBlob (sch.options.getD {}) <|>
        (getBlob ((model.serializer.bind (fun c => c.options)).getD {}) <|>
          getBlob defaults))) := by
  have he : e.options = mergeOptions [options.getD {}, sch.options.getD {},
      (model.serializer.bind (fun c => c.options)).getD {}, defaults] := by
    simp only [mkSerializer] at h
    cases hc : _compileAttributesList
        (_collectAttrs model (mergeOptions [options.getD {}, sch.options.getD {},
          (model.serializer.bind (fun c => c.options)).getD {}, defaults])) sch with
    | ok l =>
      rw [hc] at h
      cases h
      rfl
    | error msg =>
      rw [hc] at h
      cases h
  refine ⟨he, ?_, ?_, ?_, ?_, ?_, ?_⟩ <;>
    rw [he] <;>
    simp only [mergeOptions, List.foldl_cons, List.foldl_nil, mergeOpts2_encoder,
      mergeOpts2_undefinedPolicy, mergeOpts2_copyJSONFields, mergeOpts2_simpleDates,
      mergeOpts2_attrFilter, getBlob_mergeOpts2, getBlob_empty, optOrElse_assoc] <;>
    rfl

/-- Witness for C4: the theorem applied at a concrete model, scheme and
options stack — the constructor-level policy hides the default, the
scheme-level nested `blobEncoding` hides the default's `base64`. -/
theorem effective_options_precedence_witness :
    ∃ e, mkSerializer defaults0 mC1 (.inline schC4) (some optsC4) = .ok e ∧
      e.options.undefinedPolicy = some POLICY_SET_NULL ∧
      getBlob e.options = some "hex" := by
  refine ⟨_, rfl, ?_, ?_⟩
  · have h := effective_options_precedence defaults0 mC1 schC4 (some optsC4) _ rfl
    rw [h.2.2.1]
    rfl
  · have h := effective_options_precedence defaults0 mC1 schC4 (some optsC4) _ rfl
    rw [h.2.2.2.2.2.2]
    rfl

/-! ## Claim C10 — cache monotonicity -/

theorem jsLookup_jsSet {α : Type} (l : List (String × α)) (n k : String) (v : α) :
    jsLookup (jsSet l n v) k = if n = k then some v else jsLookup l k := by
  induction l with
  | nil =>
    by_cases h : n = k <;> simp [jsSet, jsLookup, h]
  | cons p rest ih =>
    obtain ⟨k', v'⟩ := p
    by_cases h1 : k' = n
    · subst h1
      by_cases h2 : k' = k <;> simp [jsSet, jsLookup, h2]
    · by_cases h2 : k' = k
      · subst h2
        have h3 : ¬n = k' := fun hh => h1 hh.symm
        simp [jsSet, jsLookup, h1, h3]
      · simp [jsSet, jsLookup, h1, h2, ih]

theorem jsSet_of_lookup_none {α : Type} (l : List (String × α)) (n : String) (v : α)
    (h : jsLookup l n = none) : jsSet l n v = l ++ [(n, v)] := by
  induction l with
  | nil => simp [jsSet]
  | cons p rest ih =>
    obtain ⟨k', v'⟩ := p
    by_cases h1 : k' = n
    · subst h1; simp [jsLookup] at h
    · simp [jsLookup, h1] at h
      simp [jsSet, h1, ih h]

theorem jsLookup_append_left {α : Type} (l ext : List (String × α)) (k : String) (x : α)
    (h : jsLookup l k = some x) : jsLookup (l ++ ext) k = some x := by
  induction l with
  | nil => simp [jsLookup] at h
  | cons p rest ih =>
    obtain ⟨k', v'⟩ := p
    by_cases h1 : k' = k
    · simp [jsLookup, h1] at h ⊢
      exact h
    · simp [jsLookup, h1] at h ⊢
      exact ih h

theorem encodeScalar_cache (e : Engine) (attr : String) (v : JSVal) (c : Option Cache)
    (p : JSVal × Option Cache) (h : encodeScalar e attr v c = .ok p) : p.2 = c := by
  simp only [encodeScalar] at h
  cases he : e.options.encoder with
  | none => rw [he] at h; cases h
  | some f =>
    rw [he] at h
    simp only [] at h
    cases hf : f (simpleDateAdjust e attr v) e.options.encoderOptions with
    | error msg => rw [hf] at h; cases h
    | ok r =>
      rw [hf] at h
      cases h
      rfl

theorem listMono_of_elems (reg : ModelRegistry) (d : OptionsIn) (fuel : Nat) (elems : List JSVal)
    (hval : ∀ x ∈ elems, ∀ e attr c r oc,
      serializeValue reg d fuel e attr x (some c) = .ok (r, oc) → ∃ ext, oc = some (c ++ ext)) :
    ∀ e attr c r oc,
      serializeValueList reg d fuel e attr elems (some c) = .ok (r, oc) →
        ∃ ext, oc = some (c ++ ext) := by
  induction elems with
  | nil =>
    intro e attr c r oc h
    simp only [serializeValueList] at h
    cases h
    exact ⟨[], by simp⟩
  | cons x xs ih =>
    intro e attr c r oc h
    simp only [serializeValueList] at h
    cases hx : serializeValue reg d fuel e attr x (some c) with
    | error msg => rw [hx] at h; cases h
    | ok p =>
      rw [hx] at h
      obtain ⟨y, c1⟩ := p
      obtain ⟨e1, he1⟩ := hval x (by simp) e attr c y c1 hx
      subst he1
      simp only [bind, Except.bind] at h
      cases hxs : serializeValueList reg d fuel e attr xs (some (c ++ e1)) with
      | error msg => rw [hxs] at h; cases h
      | ok q =>
        rw [hxs] at h
        obtain ⟨ys, c2⟩ := q
        obtain ⟨e2, he2⟩ := ih (fun z hz => hval z (by simp [hz])) e attr (c ++ e1) ys c2 hxs
        cases h
        exact ⟨e1 ++ e2, by simp [he2]⟩

theorem valueMono_bounded (reg : ModelRegistry) (d : OptionsIn) (fuel : Nat)
    (hassoc : ∀ e attr inst c r oc,
      serializeAssoc reg d fuel e attr inst (some c) = .ok (r, oc) → ∃ ext, oc = some (c ++ ext)) :
    ∀ (n : Nat) (v : JSVal), sizeOf v ≤ n → ∀ e attr c r oc,
      serializeValue reg d fuel e attr v (some c) = .ok (r, oc) → ∃ ext, oc = some (c ++ ext) := by
  intro n
  induction n with
  | zero =>
    intro v hv
    exact absurd hv (by cases v <;> simp)
  | succ n ih =>
    intro v hv e attr c r oc h
    rw [serializeValue.eq_def] at h
    split at h
    · cases h
      exact ⟨[], by simp⟩
    · split at h
      · rename_i elems
        cases hl : serializeValueList reg d fuel e attr elems (some c) with
        | error msg => rw [hl] at h; cases h
        | ok p =>
          rw [hl] at h
          simp only [bind, Except.bind] at h
          obtain ⟨es, c1⟩ := p
          cases h
          refine listMono_of_elems reg d fuel elems ?_ e attr c es c1 hl
          intro x hx e' attr' c' r' oc' h'
          have hs : sizeOf x ≤ n := by
            have h1 := List.sizeOf_lt_of_mem hx
            have h2 : sizeOf elems < sizeOf (JSVal.varr ArrayClass.array elems) := by
              simp
            omega
          exact ih x hs e' attr' c' r' oc' h'
      · exact hassoc _ _ _ _ _ _ h
      · cases henc : encodeScalar e attr v (some c) with
        | error msg => rw [henc] at h; cases h
        | ok p =>
          rw [henc] at h
          cases h
          have hc := encodeScalar_cache e attr v (some c) _ henc
          exact ⟨[], by simpa using hc⟩

theorem attrsMono (reg : ModelRegistry) (d : OptionsIn) (fuel : Nat)
    (hval : ∀ v e attr c r oc,
      serializeValue reg d fuel e attr v (some c) = .ok (r, oc) → ∃ ext, oc = some (c ++ ext)) :
    ∀ (attrs : List String) e inst out c r oc,
      serializeAttrs reg d fuel e inst attrs out (some c) = .ok (r, oc) →
        ∃ ext, oc = some (c ++ ext) := by
  intro attrs
  induction attrs with
  | nil =>
    intro e inst out c r oc h
    simp only [serializeAttrs] at h
    cases h
    exact ⟨[], by simp⟩
  | cons a rest ih =>
    intro e inst out c r oc h
    simp only [serializeAttrs] at h
    by_cases h0 : jsTypeof (fetchValue e inst a) ≠ "undefined"
    · rw [if_pos h0] at h
      cases hsv : serializeValue reg d fuel e (servedName e a) (fetchValue e inst a) (some c) with
      | error msg => rw [hsv] at h; cases h
      | ok p =>
        rw [hsv] at h
        simp only [bind, Except.bind] at h
        obtain ⟨sv, c1⟩ := p
        obtain ⟨e1, he1⟩ := hval _ e (servedName e a) c sv c1 hsv
        subst he1
        obtain ⟨e2, he2⟩ := ih e inst _ (c ++ e1) r oc h
        exact ⟨e1 ++ e2, by simp [he2]⟩
    · rw [if_neg h0] at h
      by_cases h1 : e.options.undefinedPolicy = some POLICY_SKIP
      · rw [if_pos h1] at h
        exact ih e inst out c r oc h
      · rw [if_neg h1] at h
        by_cases h2 : e.options.undefinedPolicy = some POLICY_SET_NULL
        · rw [if_pos h2] at h
          exact ih e inst _ c r oc h
        · rw [if_neg h2] at h
          by_cases h3 : e.options.undefinedPolicy = some POLICY_FAIL
          · rw [if_pos h3] at h
            cases h
          · rw [if_neg h3] at h
            cases h

theorem instMono (reg : ModelRegistry) (d : OptionsIn) (fuel : Nat)
    (hattrs : ∀ (attrs : List String) e inst out c r oc,
      serializeAttrs reg d fuel e inst attrs out (some c) = .ok (r, oc) →
        ∃ ext, oc = some (c ++ ext)) :
    ∀ e inst c r oc,
      serializeInst reg d fuel e inst (some c) = .ok (r, oc) → ∃ ext, oc = some (c ++ ext) := by
  intro e inst c r oc h
  simp only [serializeInst] at h
  split at h
  · cases hrun : serializeAttrs reg d fuel e inst e.attrList [] (some c) with
    | error msg => rw [hrun] at h; cases h
    | ok p =>
      rw [hrun] at h
      simp only [bind, Except.bind] at h
      obtain ⟨out, c1⟩ := p
      cases h
      exact hattrs e.attrList e inst [] c out c1 hrun
  · cases h

theorem assocMono_zero (reg : ModelRegistry) (d : OptionsIn) :
    ∀ e attr inst c r oc,
      serializeAssoc reg d 0 e attr inst (some c) = .ok (r, oc) → ∃ ext, oc = some (c ++ ext) := by
  intro e attr inst c r oc h
  rw [serializeAssoc.eq_def] at h
  simp only [] at h
  cases h

theorem assocMono_succ (reg : ModelRegistry) (d : OptionsIn) (fuel : Nat)
    (hinst : ∀ e inst c r oc,
      serializeInst reg d fuel e inst (some c) = .ok (r, oc) → ∃ ext, oc = some (c ++ ext)) :
    ∀ e attr inst c r oc,
      serializeAssoc reg d (fuel + 1) e attr inst (some c) = .ok (r, oc) →
        ∃ ext, oc = some (c ++ ext) := by
  intro e attr inst c r oc h
  rw [serializeAssoc.eq_def] at h
  simp only [] at h
  cases hl : jsLookup c (attrPathOf e attr) with
  | some s =>
    rw [hl] at h
    simp only [] at h
    exact hinst s inst c r oc h
  | none =>
    rw [hl] at h
    simp only [] at h
    cases inst <;> simp only [] at h
    case vinst mn data props =>
      cases hbc : buildChild reg d e attr mn with
      | error msg => rw [hbc] at h; cases h
      | ok s =>
        rw [hbc] at h
        simp only [bind, Except.bind] at h
        obtain ⟨ext, hext⟩ := hinst s (.vinst mn data props) (jsSet c (attrPathOf e attr) s) r oc h
        refine ⟨(attrPathOf e attr, s) :: ext, ?_⟩
        rw [hext, jsSet_of_lookup_none c (attrPathOf e attr) s hl]
        simp
    all_goals cases h

theorem instMono_all (reg : ModelRegistry) (d : OptionsIn) :
    ∀ fuel e inst c r oc,
      serializeInst reg d fuel e inst (some c) = .ok (r, oc) → ∃ ext, oc = some (c ++ ext) := by
  intro fuel
  induction fuel with
  | zero =>
    exact instMono reg d 0 (attrsMono reg d 0 (fun v e attr c r oc h =>
      valueMono_bounded reg d 0 (assocMono_zero reg d) (sizeOf v) v le_rfl e attr c r oc h))
  | succ fuel ihf =>
    exact instMono reg d (fuel + 1) (attrsMono reg d (fuel + 1) (fun v e attr c r oc h =>
      valueMono_bounded reg d (fuel + 1) (assocMono_succ reg d fuel ihf)
        (sizeOf v) v le_rfl e attr c r oc h))

/-- C10 (confirmed): during one serialization run with a supplied cache, the
cache grows monotonically — the run returns the cache extended by appended
entries only (`_serializeAssoc` inserts under a path key only on a cache
miss, `cache[attrPath] = serializer` appending since the key was absent), so
every existing entry is still present, unchanged, under its key. -/
theorem cache_grows_monotonically (reg : ModelRegistry) (d : OptionsIn) (fuel : Nat)
    (e : Engine) (inst : JSVal) (c : Cache) (r : JSVal) (oc : Option Cache)
    (h : serializeInst reg d fuel e inst (some c) = .ok (r, oc)) :
    ∃ ext, oc = some (c ++ ext) ∧
      ∀ k x, jsLookup c k = some x → jsLookup (c ++ ext) k = some x := by
  obtain ⟨ext, hext⟩ := instMono_all reg d fuel e inst c r oc h
  exact ⟨ext, hext, fun k x hk => jsLookup_append_left c ext k x hk⟩

/-- Witness for C10: the theorem applied to a concrete run (a flat record,
whose serialization touches no association, returns the empty cache
unchanged). -/
theorem cache_grows_monotonically_witness :
    serializeInst regAB defaults0 5 eA recFlat (some []) =
      .ok (.vobj [("x", .vnum 1)], some []) ∧
    ∃ ext, (some ([] : Cache) : Option Cache) = some (([] : Cache) ++ ext) ∧
      ∀ k x, jsLookup ([] : Cache) k = some x →
        jsLookup (([] : Cache) ++ ext) k = some x := by
  have hrun : serializeInst regAB defaults0 5 eA recFlat (some []) =
      .ok (.vobj [("x", .vnum 1)], some []) := by
    simp +decide [serializeInst, serializeAttrs, serializeValue, serializeValueList,
      serializeAssoc, copiesJSON, encodeScalar, simpleDateAdjust, servedName, fetchValue,
      outName, isGenuineAttr, isInstanceOf, instGet, instProp, callUnwrap, stripDot,
      strStartsWith, strTail, jsLookup, jsSet, emptyScheme, JScheme.include?, JScheme.exclude,
      JScheme.assoc, JScheme.as, JScheme.options, JScheme.postSerialize, encodeToJSON,
      jsTypeof, PLAIN_TYPES, jsClassName, jsFalsy, ARRAY_TYPES, eA, mA, recFlat,
      bind, Except.bind, pure, Except.pure]
  exact ⟨hrun, cache_grows_monotonically regAB defaults0 5 eA recFlat [] _ _ hrun⟩

/-! ## Claim C5 — the undefined-value policy -/

theorem serializeAttrs_append (reg : ModelRegistry) (d : OptionsIn) (fuel : Nat)
    (e : Engine) (inst : JSVal) (l1 l2 : List String) :
    ∀ (out : List (String × JSVal)) (c : Option Cache),
      serializeAttrs reg d fuel e inst (l1 ++ l2) out c =
        match serializeAttrs reg d fuel e inst l1 out c with
        | .ok p => serializeAttrs reg d fuel e inst l2 p.1 p.2
        | .error msg => .error msg := by
  induction l1 with
  | nil =>
    intro out c
    simp [serializeAttrs]
  | cons a rest ih =>
    intro out c
    rw [List.cons_append]
    by_cases h0 : jsTypeof (fetchValue e inst a) ≠ "undefined"
    · cases hsv : serializeValue reg d fuel e (servedName e a) (fetchValue e inst a) c with
      | error msg =>
        simp only [serializeAttrs, if_pos h0, hsv, bind, Except.bind]
      | ok p =>
        simp only [serializeAttrs, if_pos h0, hsv, bind, Except.bind]
        exact ih _ _
    · by_cases h1 : e.options.undefinedPolicy = some POLICY_SKIP
      · simp only [serializeAttrs, if_neg h0, if_pos h1]
        exact ih _ _
      · by_cases h2 : e.options.undefinedPolicy = some POLICY_SET_NULL
        · simp only [serializeAttrs, if_neg h0, if_neg h1, if_pos h2]
          exact ih _ _
        · by_cases h3 : e.options.undefinedPolicy = some POLICY_FAIL
          · simp only [serializeAttrs, if_neg h0, if_neg h1, if_neg h2, if_pos h3]
          · simp only [serializeAttrs, if_neg h0, if_neg h1, if_neg h2, if_neg h3]

theorem serializeAttrs_preserves_key (reg : ModelRegistry) (d : OptionsIn) (fuel : Nat)
    (e : Engine) (inst : JSVal) (k : String) :
    ∀ (attrs : List String) (out : List (String × JSVal)) (c : Option Cache)
      (r : List (String × JSVal)) (oc : Option Cache),
      serializeAttrs reg d fuel e inst attrs out c = .ok (r, oc) →
      (∀ b ∈ attrs, outName e (servedName e b) ≠ k) →
      jsLookup r k = jsLookup out k := by
  intro attrs
  induction attrs with
  | nil =>
    intro out c r oc h _
    simp only [serializeAttrs] at h
    cases h
    rfl
  | cons a rest ih =>
    intro out c r oc h hk
    have hka : outName e (servedName e a) ≠ k := hk a (by simp)
    have hkr : ∀ b ∈ rest, outName e (servedName e b) ≠ k := fun b hb => hk b (by simp [hb])
    simp only [serializeAttrs] at h
    by_cases h0 : jsTypeof (fetchValue e inst a) ≠ "undefined"
    · rw [if_pos h0] at h
      cases hsv : serializeValue reg d fuel e (servedName e a) (fetchValue e inst a) c with
      | error msg => rw [hsv] at h; cases h
      | ok p =>
        rw [hsv] at h
        simp only [bind, Except.bind] at h
        have := ih _ _ _ _ h hkr
        rw [this, jsLookup_jsSet, if_neg hka]
    · rw [if_neg h0] at h
      by_cases h1 : e.options.undefinedPolicy = some POLICY_SKIP
      · rw [if_pos h1] at h
        exact ih _ _ _ _ h hkr
      · rw [if_neg h1] at h
        by_cases h2 : e.options.undefinedPolicy = some POLICY_SET_NULL
        · rw [if_pos h2] at h
          have := ih _ _ _ _ h hkr
          rw [this, jsLookup_jsSet, if_neg hka]
        · rw [if_neg h2] at h
          by_cases h3 : e.options.undefinedPolicy = some POLICY_FAIL
          · rw [if_pos h3] at h; cases h
          · rw [if_neg h3] at h; cases h

/-- C5 (confirmed): for every engine and record on which a listed attribute's
raw value is undefined — provided the two post-hooks are absent so that the
output object is observable, and (for the key claims) no other listed
attribute renames onto the same output key — SKIP yields an output object
without that attribute's key; SET_NULL maps its key to null; FAIL makes
`serialize` throw the error naming the model and the (dot-stripped)
attribute; any other configured `undefinedPolicy` value makes `serialize`
throw the configuration error — for FAIL and the default case, provided the
serve loop reaches the attribute (the preceding entries serialize without
error). -/
theorem undefined_policy_behavior (reg : ModelRegistry) (d : OptionsIn) (fuel : Nat)
    (e : Engine) (inst : JSVal) (c : Option Cache) (pre post : List String) (a : String)
    (hlist : e.attrList = pre ++ a :: post)
    (hundef : fetchValue e inst a = .vundefined)
    (hmh : e.model.serializer.bind (fun cfg => cfg.postSerialize) = none)
    (hsh : e.scheme.postSerialize = none) :
    (e.options.undefinedPolicy = some POLICY_SKIP →
      (∀ b ∈ pre ++ post, outName e (servedName e b) ≠ outName e (servedName e a)) →
      ∀ v oc, serializeInst reg d fuel e inst c = .ok (v, oc) →
        ∃ out, v = .vobj out ∧ jsLookup out (outName e (servedName e a)) = none) ∧
    (e.options.undefinedPolicy = some POLICY_SET_NULL →
      (∀ b ∈ post, outName e (servedName e b) ≠ outName e (servedName e a)) →
      ∀ v oc, serializeInst reg d fuel e inst c = .ok (v, oc) →
        ∃ out, v = .vobj out ∧ jsLookup out (outName e (servedName e a)) = some .vnull) ∧
    (e.options.undefinedPolicy = some POLICY_FAIL →
      (∃ p, serializeAttrs reg d fuel e inst pre [] c = .ok p) →
      isInstanceOf inst e.model = true →
      serializeInst reg d fuel e inst c =
        .error ("Undefined attribute on " ++ e.model.name ++ " instance: " ++ servedName e a)) ∧
    (e.options.undefinedPolicy ≠ some POLICY_SKIP →
      e.options.undefinedPolicy ≠ some POLICY_SET_NULL →
      e.options.undefinedPolicy ≠ some POLICY_FAIL →
      (∃ p, serializeAttrs reg d fuel e inst pre [] c = .ok p) →
      isInstanceOf inst e.model = true →
      serializeInst reg d fuel e inst c = .error "Invalid undefinedPolicy setting") := by
  have h0 : ¬(jsTypeof (fetchValue e inst a) ≠ "undefined") := by
    rw [hundef]
    simp [jsTypeof]
  refine ⟨?_, ?_, ?_, ?_⟩
  · -- SKIP
    intro hp hnc v oc h
    simp only [serializeInst] at h
    split at h
    · cases hrun : serializeAttrs reg d fuel e inst e.attrList [] c with
      | error msg => rw [hrun] at h; cases h
      | ok p =>
        rw [hrun] at h
        simp only [bind, Except.bind, hmh, hsh] at h
        obtain ⟨out, c1⟩ := p
        cases h
        refine ⟨out, rfl, ?_⟩
        rw [hlist, serializeAttrs_append] at hrun
        cases hpre : serializeAttrs reg d fuel e inst pre [] c with
        | error msg => rw [hpre] at hrun; cases hrun
        | ok p1 =>
          rw [hpre] at hrun
          simp only [serializeAttrs, if_neg h0, if_pos hp] at hrun
          have hpost := serializeAttrs_preserves_key reg d fuel e inst
            (outName e (servedName e a)) post p1.1 p1.2 out c1 hrun
            (fun b hb => hnc b (by simp [hb]))
          have hpre2 := serializeAttrs_preserves_key reg d fuel e inst
            (outName e (servedName e a)) pre [] c p1.1 p1.2 hpre
            (fun b hb => hnc b (by simp [hb]))
          rw [hpost, hpre2]
          rfl
    · cases h
  · -- SET_NULL
    intro hp hnc v oc h
    simp only [serializeInst] at h
    split at h
    · cases hrun : serializeAttrs reg d fuel e inst e.attrList [] c with
      | error msg => rw [hrun] at h; cases h
      | ok p =>
        rw [hrun] at h
        simp only [bind, Except.bind, hmh, hsh] at h
        obtain ⟨out, c1⟩ := p
        cases h
        refine ⟨out, rfl, ?_⟩
        rw [hlist, serializeAttrs_append] at hrun
        cases hpre : serializeAttrs reg d fuel e inst pre [] c with
        | error msg => rw [hpre] at hrun; cases hrun
        | ok p1 =>
          rw [hpre] at hrun
          have hskip : e.options.undefinedPolicy ≠ some POLICY_SKIP := by
            rw [hp]
            simp [POLICY_SKIP, POLICY_SET_NULL]
          simp only [serializeAttrs, if_neg h0, if_neg hskip, if_pos hp] at hrun
          have hpost := serializeAttrs_preserves_key reg d fuel e inst
            (outName e (servedName e a)) post _ p1.2 out c1 hrun hnc
          rw [hpost, jsLookup_jsSet]
          simp
    · cases h
  · -- FAIL
    intro hp hpre hinst
    obtain ⟨p1, hp1⟩ := hpre
    simp only [serializeInst, if_pos hinst]
    rw [hlist, serializeAttrs_append, hp1]
    have hskip : e.options.undefinedPolicy ≠ some POLICY_SKIP := by
      rw [hp]; simp [POLICY_SKIP, POLICY_FAIL]
    have hnull : e.options.undefinedPolicy ≠ some POLICY_SET_NULL := by
      rw [hp]; simp [POLICY_SET_NULL, POLICY_FAIL]
    simp only [serializeAttrs, if_neg h0, if_neg hskip, if_neg hnull, if_pos hp,
      bind, Except.bind]
  · -- any other configured value
    intro hs hn hf hpre hinst
    obtain ⟨p1, hp1⟩ := hpre
    simp only [serializeInst, if_pos hinst]
    rw [hlist, serializeAttrs_append, hp1]
    simp only [serializeAttrs, if_neg h0, if_neg hs, if_neg hn, if_neg hf,
      bind, Except.bind]

/-- Witness for C5: the theorem applied, one conjunct per policy, to the
record whose listed attribute `b` is undefined. -/
theorem undefined_policy_behavior_witness :
    (∃ out, (JSVal.vobj [("x", JSVal.vnum 1)]) = .vobj out ∧
      jsLookup out (outName eA (servedName eA "b")) = none) ∧
    (∃ out, (JSVal.vobj [("x", JSVal.vnum 1), ("b", JSVal.vnull)]) = .vobj out ∧
      jsLookup out (outName eNull (servedName eNull "b")) = some .vnull) ∧
    serializeInst regAB defaults0 5 eFail recFlat none =
      .error ("Undefined attribute on " ++ eFail.model.name ++ " instance: " ++
        servedName eFail "b") ∧
    serializeInst regAB defaults0 5 eBad recFlat none =
      .error "Invalid undefinedPolicy setting" := by
  have hrunSkip : serializeInst regAB defaults0 5 eA recFlat none =
      .ok (.vobj [("x", .vnum 1)], none) := by
    simp +decide [serializeInst, serializeAttrs, serializeValue, serializeValueList,
      serializeAssoc, copiesJSON, encodeScalar, simpleDateAdjust, servedName, fetchValue,
      outName, isGenuineAttr, isInstanceOf, instGet, instProp, callUnwrap, stripDot,
      strStartsWith, strTail, jsLookup, jsSet, emptyScheme, JScheme.include?, JScheme.exclude,
      JScheme.assoc, JScheme.as, JScheme.options, JScheme.postSerialize, encodeToJSON,
      jsTypeof, PLAIN_TYPES, jsClassName, jsFalsy, ARRAY_TYPES, eA, mA, recFlat,
      bind, Except.bind, pure, Except.pure]
  have hrunNull : serializeInst regAB defaults0 5 eNull recFlat none =
      .ok (.vobj [("x", .vnum 1), ("b", .vnull)], none) := by
    simp +decide [serializeInst, serializeAttrs, serializeValue, serializeValueList,
      serializeAssoc, copiesJSON, encodeScalar, simpleDateAdjust, servedName, fetchValue,
      outName, isGenuineAttr, isInstanceOf, instGet, instProp, callUnwrap, stripDot,
      strStartsWith, strTail, jsLookup, jsSet, emptyScheme, JScheme.include?, JScheme.exclude,
      JScheme.assoc, JScheme.as, JScheme.options, JScheme.postSerialize, encodeToJSON,
      jsTypeof, PLAIN_TYPES, jsClassName, jsFalsy, ARRAY_TYPES, eNull, eA, mA, recFlat,
      POLICY_SKIP, POLICY_SET_NULL, bind, Except.bind, pure, Except.pure]
  have hpreFail : serializeAttrs regAB defaults0 5 eFail recFlat ["x"] [] none =
      .ok ([("x", JSVal.vnum 1)], none) := by
    simp +decide [serializeAttrs, serializeValue, serializeValueList, serializeAssoc,
      copiesJSON, encodeScalar, simpleDateAdjust, servedName, fetchValue, outName,
      isGenuineAttr, instGet, instProp, callUnwrap, stripDot, strStartsWith, strTail,
      jsLookup, jsSet, emptyScheme, JScheme.as, encodeToJSON, jsTypeof, PLAIN_TYPES,
      jsClassName, jsFalsy, ARRAY_TYPES, eFail, eA, mA, recFlat, bind, Except.bind,
      pure, Except.pure]
  have hpreBad : serializeAttrs regAB defaults0 5 eBad recFlat ["x"] [] none =
      .ok ([("x", JSVal.vnum 1)], none) := by
    simp +decide [serializeAttrs, serializeValue, serializeValueList, serializeAssoc,
      copiesJSON, encodeScalar, simpleDateAdjust, servedName, fetchValue, outName,
      isGenuineAttr, instGet, instProp, callUnwrap, stripDot, strStartsWith, strTail,
      jsLookup, jsSet, emptyScheme, JScheme.as, encodeToJSON, jsTypeof, PLAIN_TYPES,
      jsClassName, jsFalsy, ARRAY_TYPES, eBad, eA, mA, recFlat, bind, Except.bind,
      pure, Except.pure]
  refine ⟨?_, ?_, ?_, ?_⟩
  · exact (undefined_policy_behavior regAB defaults0 5 eA recFlat none ["x"] [] "b"
      rfl rfl rfl rfl).1 rfl (by decide) _ none hrunSkip
  · exact (undefined_policy_behavior regAB defaults0 5 eNull recFlat none ["x"] [] "b"
      rfl rfl rfl rfl).2.1 rfl (by decide) _ none hrunNull
  · exact (undefined_policy_behavior regAB defaults0 5 eFail recFlat none ["x"] [] "b"
      rfl rfl rfl rfl).2.2.1 rfl ⟨_, hpreFail⟩ rfl
  · exact (undefined_policy_behavior regAB defaults0 5 eBad recFlat none ["x"] [] "b"
      rfl rfl rfl rfl).2.2.2 (by decide) (by decide) (by decide) ⟨_, hpreBad⟩ rfl

/-! ## Claim C8 — mutating the global defaults table -/

theorem assocFreeList_mem (elems : List JSVal) (h : assocFreeList elems = true) :
    ∀ x ∈ elems, assocFreeVal x = true := by
  induction elems with
  | nil => intro x hx; cases hx
  | cons z zs ih =>
    intro x hx
    simp only [assocFreeList, Bool.and_eq_true] at h
    rcases List.mem_cons.mp hx with rfl | hx2
    · exact h.1
    · exact ih h.2 x hx2

theorem listInv (reg : ModelRegistry) (d d' : OptionsIn) (fuel : Nat) (elems : List JSVal)
    (hval : ∀ x ∈ elems, ∀ e attr c,
      serializeValue reg d fuel e attr x c = serializeValue reg d' fuel e attr x c) :
    ∀ e attr c,
      serializeValueList reg d fuel e attr elems c =
        serializeValueList reg d' fuel e attr elems c := by
  induction elems with
  | nil => intro e attr c; simp [serializeValueList]
  | cons x xs ih =>
    intro e attr c
    simp only [serializeValueList]
    rw [hval x (by simp) e attr c]
    cases hx : serializeValue reg d' fuel e attr x c with
    | error msg => simp [hx, bind, Except.bind]
    | ok p =>
      simp only [hx, bind, Except.bind]
      rw [ih (fun z hz => hval z (by simp [hz])) e attr p.2]

theorem valueInv_bounded (reg : ModelRegistry) (d d' : OptionsIn) (fuel : Nat) :
    ∀ (n : Nat) (v : JSVal), sizeOf v ≤ n → assocFreeVal v = true → ∀ e attr c,
      serializeValue reg d fuel e attr v c = serializeValue reg d' fuel e attr v c := by
  intro n
  induction n with
  | zero =>
    intro v hv
    exact absurd hv (by cases v <;> simp)
  | succ n ih =>
    intro v hv hf e attr c
    rw [serializeValue.eq_def]
    conv_rhs => rw [serializeValue.eq_def]
    by_cases hcj : copiesJSON e attr = true
    · rw [if_pos hcj, if_pos hcj]
    · rw [if_neg hcj, if_neg hcj]
      cases v with
      | varr cls elems =>
        cases cls with
        | array =>
          have hl : serializeValueList reg d fuel e attr elems c =
              serializeValueList reg d' fuel e attr elems c := by
            refine listInv reg d d' fuel elems ?_ e attr c
            intro x hx e' attr' c'
            have hs : sizeOf x ≤ n := by
              have h1 := List.sizeOf_lt_of_mem hx
              have h2 : sizeOf elems < sizeOf (JSVal.varr ArrayClass.array elems) := by
                simp
              omega
            have hfx : assocFreeVal x = true := by
              simp only [assocFreeVal] at hf
              exact assocFreeList_mem elems hf x hx
            exact ih x hs hfx e' attr' c'
          simp only [hl]
        | int8Array => rfl
        | uint8Array => rfl
        | uint8ClampedArray => rfl
        | int16Array => rfl
        | uint16Array => rfl
        | int32Array => rfl
        | uint32Array => rfl
        | float32Array => rfl
        | float64Array => rfl
      | vinst mn data props => simp [assocFreeVal] at hf
      | vstr s => rfl
      | vnum k => rfl
      | vbool b => rfl
      | vnull => rfl
      | vundefined => rfl
      | vdate y mo0 day iso => rfl
      | vbuffer bytes => rfl
      | vobj fields => rfl
      | vfunc ret => rfl
      | vsymbol => rfl

theorem attrsInv (reg : ModelRegistry) (d d' : OptionsIn) (fuel : Nat) (e : Engine)
    (inst : JSVal) :
    ∀ (attrs : List String),
      (∀ a ∈ attrs, assocFreeVal (fetchValue e inst a) = true) →
      ∀ out c,
        serializeAttrs reg d fuel e inst attrs out c =
          serializeAttrs reg d' fuel e inst attrs out c := by
  intro attrs
  induction attrs with
  | nil => intro _ out c; simp [serializeAttrs]
  | cons a rest ih =>
    intro hfree out c
    simp only [serializeAttrs]
    by_cases h0 : jsTypeof (fetchValue e inst a) ≠ "undefined"
    · rw [if_pos h0, if_pos h0]
      rw [valueInv_bounded reg d d' fuel (sizeOf (fetchValue e inst a)) _ le_rfl
        (hfree a (by simp)) e (servedName e a) c]
      cases hx : serializeValue reg d' fuel e (servedName e a) (fetchValue e inst a) c with
      | error msg => simp [hx, bind, Except.bind]
      | ok p =>
        simp only [hx, bind, Except.bind]
        exact ih (fun z hz => hfree z (by simp [hz])) _ _
    · rw [if_neg h0, if_neg h0]
      by_cases h1 : e.options.undefinedPolicy = some POLICY_SKIP
      · rw [if_pos h1, if_pos h1]
        exact ih (fun z hz => hfree z (by simp [hz])) _ _
      · rw [if_neg h1, if_neg h1]
        by_cases h2 : e.options.undefinedPolicy = some POLICY_SET_NULL
        · rw [if_pos h2, if_pos h2]
          exact ih (fun z hz => hfree z (by simp [hz])) _ _
        · rw [if_neg h2, if_neg h2]

/-- C8 (corrected): mutating the defaults table leaves the constructed
engines — hence their effective options — unchanged, and engines constructed
afterwards read the new defaults; the serialize output of an
already-constructed engine is also unchanged provided its run constructs no
child engine (no association values among the served attributes).  On
records with associated instances the output can change, because child
engines are constructed during `serialize` reading the live defaults (see
the counterexample). -/
theorem defaults_snapshot_behavior (reg : ModelRegistry) :
    (∀ (s : SState) (d : OptionsIn),
      (stepState s (.setDefaults d)).engines = s.engines ∧
      (stepState s (.setDefaults d)).defaults = d) ∧
    (∀ (s : SState) (m : JModel) (sch : JSchemeRef) (o : Option OptionsIn) (e : Engine),
      mkSerializer s.defaults m sch o = .ok e →
      stepState s (.construct m sch o) = ⟨s.defaults, s.engines ++ [e]⟩) ∧
    (∀ (d d' : OptionsIn) (fuel : Nat) (e : Engine) (inst : JSVal) (cache : Option Cache),
      (∀ a ∈ e.attrList, assocFreeVal (fetchValue e inst a) = true) →
      serializeInst reg d fuel e inst cache = serializeInst reg d' fuel e inst cache) := by
  refine ⟨fun s d => ⟨rfl, rfl⟩, ?_, ?_⟩
  · intro s m sch o e h
    simp [stepState, h]
  · intro d d' fuel e inst cache hfree
    simp only [serializeInst]
    by_cases hi : isInstanceOf inst e.model = true
    · rw [if_pos hi, if_pos hi]
      rw [attrsInv reg d d' fuel e inst e.attrList hfree [] cache]
    · rw [if_neg hi, if_neg hi]

/-- C8, counterexample: mutating the defaults table between construction and
serialization changes the serialize output of the already-constructed engine
for a record with an associated instance — the child engine is constructed
during `serialize` and reads the mutated table (SKIP before, SET_NULL
after). -/
theorem defaults_mutation_changes_output_counterexample :
    (stepState (stepState ⟨defaults0, []⟩ (.construct mA .absent none))
        (.setDefaults dNull)).engines =
      (stepState ⟨defaults0, []⟩ (.construct mA .absent none)).engines ∧
    serializeInState regAB 5 (stepState ⟨defaults0, []⟩ (.construct mA .absent none)) 0
        recAssoc = .ok (.vobj [("b", .vobj [])]) ∧
    serializeInState regAB 5
        (stepState (stepState ⟨defaults0, []⟩ (.construct mA .absent none))
          (.setDefaults dNull)) 0 recAssoc =
      .ok (.vobj [("b", .vobj [("y", .vnull)])]) ∧
    (JSVal.vobj [("b", JSVal.vobj [])]) ≠ (JSVal.vobj [("b", JSVal.vobj [("y", JSVal.vnull)])]) := by
  have hs1 : stepState ⟨defaults0, []⟩ (.construct mA .absent none) = ⟨defaults0, [eA]⟩ := by
    rfl
  have hs2 : stepState (stepState ⟨defaults0, []⟩ (.construct mA .absent none))
      (.setDefaults dNull) = ⟨dNull, [eA]⟩ := by rfl
  refine ⟨by rfl, ?_, ?_, by simp⟩
  · rw [hs1]
    have hB0 : mkSerializer defaults0 mB .absent none = .ok eB := by rfl
    have hmBs : mB.serializer = none := rfl
    simp +decide [serializeInState, Except.map, hB0, hmBs, serializeInst, serializeAttrs,
      serializeValue, serializeValueList, serializeAssoc, buildChild, copiesJSON,
      encodeScalar, simpleDateAdjust, servedName, fetchValue, outName, isGenuineAttr,
      isInstanceOf, instGet, instProp, callUnwrap, stripDot, strStartsWith, strTail,
      jsLookup, jsSet, attrPathOf, assocSchemeRef, emptyScheme, JScheme.include?,
      JScheme.exclude, JScheme.assoc, JScheme.as, JScheme.options, JScheme.postSerialize,
      encodeToJSON, jsTypeof, PLAIN_TYPES, jsClassName, jsFalsy, ARRAY_TYPES, eA, eB, mA,
      recAssoc, regAB, bind, Except.bind, pure, Except.pure]
  · rw [hs2]
    have hBn : mkSerializer dNull mB .absent none = .ok eBnull := by rfl
    have hmBs : mB.serializer = none := rfl
    simp +decide [serializeInState, Except.map, hBn, hmBs, serializeInst, serializeAttrs,
      serializeValue, serializeValueList, serializeAssoc, buildChild, copiesJSON,
      encodeScalar, simpleDateAdjust, servedName, fetchValue, outName, isGenuineAttr,
      isInstanceOf, instGet, instProp, callUnwrap, stripDot, strStartsWith, strTail,
      jsLookup, jsSet, attrPathOf, assocSchemeRef, emptyScheme, JScheme.include?,
      JScheme.exclude, JScheme.assoc, JScheme.as, JScheme.options, JScheme.postSerialize,
      encodeToJSON, jsTypeof, PLAIN_TYPES, jsClassName, jsFalsy, ARRAY_TYPES, eA, eBnull,
      mA, recAssoc, regAB, POLICY_SKIP, POLICY_SET_NULL, bind, Except.bind, pure,
      Except.pure]

/-- Witness for C8: the corrected theorem applied at a concrete state, a
concrete construction, and a concrete association-free record. -/
theorem defaults_snapshot_behavior_witness :
    (stepState ⟨defaults0, []⟩ (.setDefaults dNull)).engines = [] ∧
    stepState ⟨defaults0, []⟩ (.construct mA .absent none) = ⟨defaults0, [] ++ [eA]⟩ ∧
    serializeInst regAB defaults0 5 eA recFlat none =
      serializeInst regAB dNull 5 eA recFlat none := by
  have h := defaults_snapshot_behavior regAB
  exact ⟨(h.1 ⟨defaults0, []⟩ dNull).1,
    h.2.1 ⟨defaults0, []⟩ mA .absent none eA (by rfl),
    h.2.2 defaults0 dNull 5 eA recFlat none (by decide)⟩

/-! ## Claim C9 — the merges build fresh objects and leave their sources alone -/

theorem preserved_append (n : Nat) (h0 h ext : Heap) (hp : PreservedUpTo n h0 h) :
    PreservedUpTo n h0 (h ++ ext) := by
  obtain ⟨hl, hv⟩ := hp
  refine ⟨by simp; omega, fun i hi => ?_⟩
  rw [List.getElem?_append, if_pos (by omega : i < h.length)]
  exact hv i hi

theorem preserved_alloc (n : Nat) (h0 h : Heap) (o : HObj) (hp : PreservedUpTo n h0 h) :
    PreservedUpTo n h0 (halloc h o).1 :=
  preserved_append n h0 h [o] hp

theorem preserved_set (n : Nat) (h0 h : Heap) (r : Nat) (o : HObj) (hr : n ≤ r)
    (hp : PreservedUpTo n h0 h) : PreservedUpTo n h0 (hset h r o) := by
  refine ⟨by simp [hset]; exact hp.1, fun i hi => ?_⟩
  rw [hset, List.getElem?_set_ne (by omega)]
  exact hp.2 i hi

theorem preserved_objSet (n : Nat) (h0 h : Heap) (r : Nat) (k : String) (v : HVal)
    (hr : n ≤ r) (hp : PreservedUpTo n h0 h) : PreservedUpTo n h0 (objSet h r k v) := by
  rw [objSet]
  cases hget h r with
  | none => exact hp
  | some o =>
    cases o with
    | obj fs => exact preserved_set n h0 h r _ hr hp
    | arr es => exact hp

theorem cloneFieldsH_append (fuel : Nat)
    (hP : ∀ h v, ∃ ext, (cloneDeepH fuel h v).1 = h ++ ext) :
    ∀ (l : List (String × HVal)) (h : Heap), ∃ ext, (cloneFieldsH fuel h l).1 = h ++ ext := by
  intro l
  induction l with
  | nil => intro h; exact ⟨[], by simp [cloneFieldsH.eq_def]⟩
  | cons p rest ih =>
    intro h
    obtain ⟨k, v⟩ := p
    simp only [cloneFieldsH]
    obtain ⟨e1, he1⟩ := hP h v
    rcases hc : cloneDeepH fuel h v with ⟨h1, v1⟩
    obtain ⟨e2, he2⟩ := ih h1
    rcases hr : cloneFieldsH fuel h1 rest with ⟨h2, rest1⟩
    rw [hc] at he1
    rw [hr] at he2
    simp only at he1 he2
    simp only [hc, hr]
    exact ⟨e1 ++ e2, by rw [he2, he1, List.append_assoc]⟩

theorem cloneListH_append (fuel : Nat)
    (hP : ∀ h v, ∃ ext, (cloneDeepH fuel h v).1 = h ++ ext) :
    ∀ (l : List HVal) (h : Heap), ∃ ext, (cloneListH fuel h l).1 = h ++ ext := by
  intro l
  induction l with
  | nil => intro h; exact ⟨[], by simp [cloneListH.eq_def]⟩
  | cons v rest ih =>
    intro h
    simp only [cloneListH]
    obtain ⟨e1, he1⟩ := hP h v
    rcases hc : cloneDeepH fuel h v with ⟨h1, v1⟩
    obtain ⟨e2, he2⟩ := ih h1
    rcases hr : cloneListH fuel h1 rest with ⟨h2, rest1⟩
    rw [hc] at he1
    rw [hr] at he2
    simp only at he1 he2
    simp only [hc, hr]
    exact ⟨e1 ++ e2, by rw [he2, he1, List.append_assoc]⟩

theorem cloneDeepH_append : ∀ (fuel : Nat) (h : Heap) (v : HVal),
    ∃ ext, (cloneDeepH fuel h v).1 = h ++ ext := by
  intro fuel
  induction fuel with
  | zero => intro h v; exact ⟨[], by simp [cloneDeepH]⟩
  | succ fuel ih =>
    intro h v
    cases v with
    | prim p => exact ⟨[], by simp [cloneDeepH]⟩
    | ref r =>
      simp only [cloneDeepH]
      cases hg : hget h r with
      | none => exact ⟨[], by simp⟩
      | some o =>
        cases o with
        | obj fs =>
          obtain ⟨e1, he1⟩ := cloneFieldsH_append fuel ih fs h
          rcases hc : cloneFieldsH fuel h fs with ⟨h1, fs1⟩
          rw [hc] at he1
          simp only at he1
          refine ⟨e1 ++ [.obj fs1], ?_⟩
          simp [hc, halloc, he1]
        | arr es =>
          obtain ⟨e1, he1⟩ := cloneListH_append fuel ih es h
          rcases hc : cloneListH fuel h es with ⟨h1, es1⟩
          rw [hc] at he1
          simp only at he1
          refine ⟨e1 ++ [.arr es1], ?_⟩
          simp [hc, halloc, he1]

theorem mergeKeysH_frame (n : Nat) (h0 : Heap) (fuel : Nat)
    (hM : ∀ h srcs, PreservedUpTo n h0 h → PreservedUpTo n h0 (deepMergeH fuel h srcs).1) :
    ∀ (kvs : List (String × HVal)) (h : Heap) (res : Nat), n ≤ res →
      PreservedUpTo n h0 h → PreservedUpTo n h0 (mergeKeysH fuel h res kvs) := by
  intro kvs
  induction kvs with
  | nil =>
    intro h res _ hp
    simp only [mergeKeysH.eq_def]
    exact hp
  | cons p rest ih =>
    intro h res hr hp
    obtain ⟨k, v⟩ := p
    simp only [mergeKeysH]
    split
    · refine ih _ res hr ?_
      exact preserved_objSet n h0 _ res k _ hr (preserved_alloc n h0 h _ hp)
    · split
      · refine ih _ res hr ?_
        exact preserved_objSet n h0 _ res k _ hr (hM h [objGet h res k, v] hp)
      · refine ih _ res hr ?_
        obtain ⟨e1, he1⟩ := cloneDeepH_append fuel h v
        refine preserved_objSet n h0 _ res k _ hr ?_
        rw [he1]
        exact preserved_append n h0 h e1 hp

theorem mergeSourcesH_frame (n : Nat) (h0 : Heap) (fuel : Nat)
    (hK : ∀ (kvs : List (String × HVal)) (h : Heap) (res : Nat), n ≤ res →
      PreservedUpTo n h0 h → PreservedUpTo n h0 (mergeKeysH fuel h res kvs)) :
    ∀ (srcs : List HVal) (h : Heap) (res : Nat), n ≤ res →
      PreservedUpTo n h0 h → PreservedUpTo n h0 (mergeSourcesH fuel h res srcs) := by
  intro srcs
  induction srcs with
  | nil =>
    intro h res _ hp
    simp only [mergeSourcesH.eq_def]
    exact hp
  | cons src rest ih =>
    intro h res hr hp
    simp only [mergeSourcesH]
    exact ih _ res hr (hK (enumProps h src) h res hr hp)

theorem deepMergeH_frame (n : Nat) (h0 : Heap) :
    ∀ (fuel : Nat) (h : Heap) (srcs : List HVal),
      PreservedUpTo n h0 h → PreservedUpTo n h0 (deepMergeH fuel h srcs).1 := by
  intro fuel
  induction fuel with
  | zero =>
    intro h srcs hp
    simp only [deepMergeH.eq_def]
    exact preserved_alloc n h0 h _ hp
  | succ fuel ih =>
    intro h srcs hp
    simp only [deepMergeH, halloc]
    refine mergeSourcesH_frame n h0 fuel (mergeKeysH_frame n h0 fuel ih) srcs _ h.length
      hp.1 (preserved_append n h0 h _ hp)

theorem defaultsKeysH_frame (n : Nat) (h0 : Heap) (fuel : Nat)
    (hM : ∀ h srcs, PreservedUpTo n h0 h → PreservedUpTo n h0 (defaultsDeepH fuel h srcs).1) :
    ∀ (kvs : List (String × HVal)) (h : Heap) (res : Nat), n ≤ res →
      PreservedUpTo n h0 h → PreservedUpTo n h0 (defaultsKeysH fuel h res kvs) := by
  intro kvs
  induction kvs with
  | nil =>
    intro h res _ hp
    simp only [defaultsKeysH.eq_def]
    exact hp
  | cons p rest ih =>
    intro h res hr hp
    obtain ⟨k, v⟩ := p
    simp only [defaultsKeysH]
    split
    · refine ih _ res hr ?_
      obtain ⟨e1, he1⟩ := cloneDeepH_append fuel h v
      refine preserved_objSet n h0 _ res k _ hr ?_
      rw [he1]
      exact preserved_append n h0 h e1 hp
    · split
      · refine ih _ res hr ?_
        exact preserved_objSet n h0 _ res k _ hr (hM h [objGet h res k, v] hp)
      · exact ih _ res hr hp

theorem defaultsSourcesH_frame (n : Nat) (h0 : Heap) (fuel : Nat)
    (hK : ∀ (kvs : List (String × HVal)) (h : Heap) (res : Nat), n ≤ res →
      PreservedUpTo n h0 h → PreservedUpTo n h0 (defaultsKeysH fuel h res kvs)) :
    ∀ (srcs : List HVal) (h : Heap) (res : Nat), n ≤ res →
      PreservedUpTo n h0 h → PreservedUpTo n h0 (defaultsSourcesH fuel h res srcs) := by
  intro srcs
  induction srcs with
  | nil =>
    intro h res _ hp
    simp only [defaultsSourcesH.eq_def]
    exact hp
  | cons src rest ih =>
    intro h res hr hp
    simp only [defaultsSourcesH]
    exact ih _ res hr (hK (enumProps h src) h res hr hp)

theorem defaultsDeepH_frame (n : Nat) (h0 : Heap) :
    ∀ (fuel : Nat) (h : Heap) (srcs : List HVal),
      PreservedUpTo n h0 h → PreservedUpTo n h0 (defaultsDeepH fuel h srcs).1 := by
  intro fuel
  induction fuel with
  | zero =>
    intro h srcs hp
    simp only [defaultsDeepH.eq_def]
    exact preserved_alloc n h0 h _ hp
  | succ fuel ih =>
    intro h srcs hp
    simp only [defaultsDeepH, halloc]
    refine defaultsSourcesH_frame n h0 fuel (defaultsKeysH_frame n h0 fuel ih) srcs _ h.length
      hp.1 (preserved_append n h0 h _ hp)

theorem deepMergeH_res (fuel : Nat) (h : Heap) (srcs : List HVal) :
    (deepMergeH fuel h srcs).2 = h.length := by
  cases fuel <;> simp [deepMergeH, halloc]

theorem defaultsDeepH_res (fuel : Nat) (h : Heap) (srcs : List HVal) :
    (defaultsDeepH fuel h srcs).2 = h.length := by
  cases fuel <;> simp [defaultsDeepH, halloc]

/-- C9 (confirmed): both `deepMerge` (scheme merging) and the constructor's
`defaultsDeep` (options merging) return a freshly allocated result object
and leave every pre-existing heap object — in particular every
caller-supplied scheme and options object, and everything they reference —
exactly as it was: values taken from the sources are deep-cloned into fresh
cells, never shared mutably. -/
theorem merge_builds_fresh_and_preserves_sources (fuel : Nat) (h : Heap)
    (sources : List HVal) :
    ((deepMergeH fuel h sources).2 = h.length ∧
      ∀ i, i < h.length → ((deepMergeH fuel h sources).1)[i]? = h[i]?) ∧
    ((defaultsDeepH fuel h sources).2 = h.length ∧
      ∀ i, i < h.length → ((defaultsDeepH fuel h sources).1)[i]? = h[i]?) := by
  refine ⟨⟨deepMergeH_res fuel h sources, ?_⟩, ⟨defaultsDeepH_res fuel h sources, ?_⟩⟩
  · exact fun i hi =>
      (deepMergeH_frame h.length h fuel h sources ⟨le_rfl, fun _ _ => rfl⟩).2 i hi
  · exact fun i hi =>
      (defaultsDeepH_frame h.length h fuel h sources ⟨le_rfl, fun _ _ => rfl⟩).2 i hi

/-- Witness for C9: the theorem applied to a one-object heap (a caller's
options object) being merged; the pre-existing cell is untouched. -/
theorem merge_builds_fresh_and_preserves_sources_witness :
    ((deepMergeH 3 [.obj [("a", .prim (.pnum 1))]] [.ref 0]).2 = 1 ∧
      ((deepMergeH 3 [.obj [("a", .prim (.pnum 1))]] [.ref 0]).1)[0]? =
        some (.obj [("a", .prim (.pnum 1))])) ∧
    ((defaultsDeepH 3 [.obj [("a", .prim (.pnum 1))]] [.ref 0]).2 = 1 ∧
      ((defaultsDeepH 3 [.obj [("a", .prim (.pnum 1))]] [.ref 0]).1)[0]? =
        some (.obj [("a", .prim (.pnum 1))])) := by
  have h := merge_builds_fresh_and_preserves_sources 3 [.obj [("a", .prim (.pnum 1))]] [.ref 0]
  exact ⟨⟨h.1.1, h.1.2 0 (by decide)⟩, ⟨h.2.1, h.2.2 0 (by decide)⟩⟩

/-- C7 (confirmed): `encodeToJSON` on a value that is not a plain scalar and
not null, has no recognized array-class constructor name, is not a Date, is
not a Buffer, and is not of `typeof` "object" (e.g. a function or a symbol)
falls through every branch and throws the error naming the offending runtime
type, returning no result (src/index.js lines 61-63). -/
theorem encoder_rejects_unknown_types (bufToStr : BufToStr) (v : JSVal)
    (options : Option EncOpts)
    (hplain : jsTypeof v ∉ PLAIN_TYPES) (hnull : v ≠ .vnull)
    (harr : ∀ c, jsClassName v = some c → c ∉ ARRAY_TYPES)
    (hdate : ∀ y mo0 day iso, v ≠ .vdate y mo0 day iso)
    (hbuf : ∀ bytes, v ≠ .vbuffer bytes)
    (hobj : jsTypeof v ≠ "object") :
    encodeToJSON bufToStr v options =
      .error ("Can't encode " ++ jsTypeof v ++ " to JSON") := by
  cases v with
  | vstr s => simp [jsTypeof, PLAIN_TYPES] at hplain
  | vnum n => simp [jsTypeof, PLAIN_TYPES] at hplain
  | vbool b => simp [jsTypeof, PLAIN_TYPES] at hplain
  | vnull => exact absurd rfl hnull
  | vundefined => simp +decide [encodeToJSON, jsTypeof, PLAIN_TYPES, jsClassName, jsFalsy]
  | varr cls elems =>
    exact absurd (by cases cls <;> simp [ARRAY_TYPES, ArrayClass.ctorName])
      (harr cls.ctorName (by simp [jsClassName, jsFalsy]))
  | vdate y mo0 day iso => exact absurd rfl (hdate y mo0 day iso)
  | vbuffer bytes => exact absurd rfl (hbuf bytes)
  | vobj fields => simp [jsTypeof] at hobj
  | vinst m data props => simp [jsTypeof] at hobj
  | vfunc ret => simp +decide [encodeToJSON, jsTypeof, PLAIN_TYPES, jsClassName, jsFalsy]
  | vsymbol => simp +decide [encodeToJSON, jsTypeof, PLAIN_TYPES, jsClassName, jsFalsy]

/-- Witness for C7: a symbol value is rejected with the error naming its
runtime type. -/
theorem encoder_rejects_unknown_types_witness :
    encodeToJSON (fun _ _ => "") .vsymbol none = .error "Can't encode symbol to JSON" :=
  encoder_rejects_unknown_types (fun _ _ => "") .vsymbol none (by decide)
    (by simp) (by simp +decide [jsClassName, jsFalsy, ARRAY_TYPES]) (fun _ _ _ _ => by simp) (fun _ => by simp)
    (by decide)

/-! ## Path-key and canonical-engine lemmas for the cache coupling -/

theorem strExt (a b : String) (h : a.data = b.data) : a = b := by
  cases a; cases b; exact congrArg String.mk h

theorem jsLookup_mem {α : Type} : ∀ (l : List (String × α)) (k : String) (v : α),
    jsLookup l k = some v → (k, v) ∈ l := by
  intro l
  induction l with
  | nil => intro k v h; simp [jsLookup] at h
  | cons p rest ih =>
    intro k v h
    obtain ⟨k', v'⟩ := p
    simp only [jsLookup] at h
    by_cases hk : k' = k
    · rw [if_pos hk] at h
      cases h
      subst hk
      exact List.mem_cons_self _ _
    · rw [if_neg hk] at h
      exact List.mem_cons_of_mem _ (ih k v h)

theorem dotFree_spec (s : String) (h : dotFree s = true) :
    s.data ≠ [] ∧ '.' ∉ s.data := by
  simp [dotFree] at h
  exact ⟨by simpa [List.isEmpty_iff] using h.1, h.2⟩

theorem dot_split_unique : ∀ (x y u v : List Char), '.' ∉ u → '.' ∉ v →
    x ++ '.' :: u = y ++ '.' :: v → x = y ∧ u = v := by
  intro x
  induction x with
  | nil =>
    intro y u v hu hv h
    cases y with
    | nil => simpa using h
    | cons d y' =>
      simp only [List.nil_append, List.cons_append, List.cons.injEq] at h
      exact absurd (h.2 ▸ List.mem_append_right y' (List.mem_cons_self '.' v)) hu
  | cons c x' ih =>
    intro y u v hu hv h
    cases y with
    | nil =>
      simp only [List.cons_append, List.nil_append, List.cons.injEq] at h
      exact absurd (h.2 ▸ List.mem_append_right x' (List.mem_cons_self '.' u)) hv
    | cons d y' =>
      simp only [List.cons_append, List.cons.injEq] at h
      obtain ⟨h1, h2⟩ := ih y' u v hu hv h.2
      exact ⟨by rw [h.1, h1], h2⟩

theorem pathR_data (a : String) : ∀ (r : List String), r ≠ [] →
    (pathR (a :: r)).data = (pathR r).data ++ '.' :: a.data := by
  intro r hr
  cases r with
  | nil => exact absurd rfl hr
  | cons b t =>
    show (pathR (b :: t) ++ "." ++ a).data = _
    rw [String.data_append, String.data_append]
    simp

theorem pathR_inj : ∀ (r1 r2 : List String), chainOK r1 = true → chainOK r2 = true →
    r1 ≠ [] → r2 ≠ [] → pathR r1 = pathR r2 → r1 = r2 := by
  intro r1
  induction r1 with
  | nil => intro r2 _ _ h1 _ _; exact absurd rfl h1
  | cons a t ih =>
    intro r2 hok1 hok2 _ hne2 h
    cases r2 with
    | nil => exact absurd rfl hne2
    | cons b t2 =>
      simp only [chainOK, List.all_cons, Bool.and_eq_true] at hok1 hok2
      obtain ⟨hda, hta⟩ := hok1
      obtain ⟨hdb, htb⟩ := hok2
      cases t with
      | nil =>
        cases t2 with
        | nil =>
          show [a] = [b]
          rw [show a = pathR [a] from rfl, show b = pathR [b] from rfl, h]
        | cons c2 t2' =>
          have hd := congrArg String.data h
          rw [show pathR [a] = a from rfl, pathR_data b (c2 :: t2') (by simp)] at hd
          exact absurd
            (hd ▸ List.mem_append_right (pathR (c2 :: t2')).data (List.mem_cons_self '.' b.data))
            (dotFree_spec a hda).2
      | cons c t' =>
        cases t2 with
        | nil =>
          have hd := congrArg String.data h
          rw [show pathR [b] = b from rfl, pathR_data a (c :: t') (by simp)] at hd
          exact absurd
            (hd.symm ▸ List.mem_append_right (pathR (c :: t')).data (List.mem_cons_self '.' a.data))
            (dotFree_spec b hdb).2
        | cons c2 t2' =>
          have hd := congrArg String.data h
          rw [pathR_data a (c :: t') (by simp), pathR_data b (c2 :: t2') (by simp)] at hd
          obtain ⟨hx, hu⟩ := dot_split_unique _ _ _ _
            (dotFree_spec a hda).2 (dotFree_spec b hdb).2 hd
          have hab : a = b := strExt a b hu
          have ht : (c :: t') = (c2 :: t2') :=
            ih (c2 :: t2') hta htb (by simp) (by simp) (strExt _ _ hx)
          rw [hab, ht]

theorem mkSerializer_attrPath (d : OptionsIn) (m : JModel) (sch : JSchemeRef)
    (o : Option OptionsIn) (e : Engine) (h : mkSerializer d m sch o = .ok e) :
    e.attrPath = none := by
  simp only [mkSerializer] at h
  split at h
  · split at h
    · cases h; rfl
    · cases h
  · cases h
  · cases h

theorem buildChild_attrPath (reg : ModelRegistry) (d : OptionsIn) (e : Engine)
    (a : String) (mn : String) (s : Engine) (h : buildChild reg d e a mn = .ok s) :
    s.attrPath = some (attrPathOf e a) := by
  simp only [buildChild] at h
  cases hm : jsLookup reg mn with
  | none => rw [hm] at h; cases h
  | some m =>
    rw [hm] at h
    simp only [] at h
    cases hs : mkSerializer d m (assocSchemeRef e.scheme a) e.origOptions with
    | error msg => rw [hs] at h; simp only [bind, Except.bind] at h; cases h
    | ok s0 =>
      rw [hs] at h
      simp only [bind, Except.bind] at h
      cases h
      rfl

theorem canonEngineR_attrPath (w : SerWorld) : ∀ (r : List String) (e : Engine),
    canonEngineR w r = .ok e →
    e.attrPath = match r with | [] => none | _ :: _ => some (pathR r) := by
  intro r
  induction r with
  | nil => exact fun e h => mkSerializer_attrPath w.defaults w.model w.scheme w.options e h
  | cons a t iht =>
    intro e h
    simp only [canonEngineR, bind, Except.bind] at h
    cases hp : canonEngineR w t with
    | error msg => rw [hp] at h; cases h
    | ok p =>
      rw [hp] at h
      have hap := buildChild_attrPath w.reg w.defaults p a (w.modelAt (a :: t)) e h
      rw [hap]
      have hpp := iht p hp
      cases t with
      | nil =>
        simp only [] at hpp
        simp only [attrPathOf, hpp]
        rfl
      | cons c t' =>
        simp only [] at hpp
        simp only [attrPathOf, hpp]
        rfl

theorem attrPathOf_canon (w : SerWorld) (r : List String) (e : Engine) (a : String)
    (h : canonEngineR w r = .ok e) : attrPathOf e a = pathR (a :: r) := by
  have hp := canonEngineR_attrPath w r e h
  cases r with
  | nil => simp only [] at hp; simp only [attrPathOf, hp]; rfl
  | cons c t => simp only [] at hp; simp only [attrPathOf, hp]; rfl

theorem consVal_callUnwrap (μ : List String → String) (c : List String) (w : JSVal)
    (h : consValB μ c w = true) : consValB μ c (callUnwrap w) = true := by
  cases w <;> simp only [callUnwrap] <;> exact h

theorem consFieldsB_lookup (μ : List String → String) (c : List String) :
    ∀ (l : List (String × JSVal)) (k : String) (v : JSVal),
      consFieldsB μ c l = true → jsLookup l k = some v → consValB μ (k :: c) v = true := by
  intro l
  induction l with
  | nil => intro k v _ hl; simp [jsLookup] at hl
  | cons p rest ih =>
    intro k v h hl
    obtain ⟨k', v'⟩ := p
    simp only [consFieldsB, Bool.and_eq_true] at h
    simp only [jsLookup] at hl
    by_cases hk : k' = k
    · rw [if_pos hk] at hl
      cases hl
      exact hk ▸ h.1
    · rw [if_neg hk] at hl
      exact ih k v h.2 hl

theorem consListB_mem (μ : List String → String) (c : List String) :
    ∀ (l : List JSVal) (v : JSVal), consListB μ c l = true → v ∈ l →
      consValB μ c v = true := by
  intro l
  induction l with
  | nil => intro v _ hv; cases hv
  | cons x xs ih =>
    intro v h hv
    simp only [consListB, Bool.and_eq_true] at h
    rcases List.mem_cons.1 hv with rfl | hv'
    · exact h.1
    · exact ih v h.2 hv'

theorem cacheCanon_insert (w : SerWorld) (c : Cache) (k : String) (s : Engine)
    (hc : CacheCanon w c) (hl : jsLookup c k = none) (r : List String) (hr : r ≠ [])
    (hok : chainOK r = true) (hk : k = pathR r) (hs : canonEngineR w r = .ok s) :
    CacheCanon w (jsSet c k s) := by
  rw [jsSet_of_lookup_none c k s hl]
  intro kv hkv
  rcases List.mem_append.1 hkv with h | h
  · exact hc kv h
  · simp only [List.mem_singleton] at h
    subst h
    exact ⟨r, hr, hok, hk, hs⟩

theorem consValB_vinst (μ : List String → String) (c : List String) (mn : String)
    (data props : List (String × JSVal))
    (h : consValB μ c (.vinst mn data props) = true) :
    mn = μ c ∧ consFieldsB μ c data = true ∧ consFieldsB μ c props = true := by
  simpa [consValB, Bool.and_eq_true, and_assoc] using h

theorem consValB_undefined (μ : List String → String) (c : List String) :
    consValB μ c .vundefined = true := by
  simp [consValB]

theorem consValB_varr (μ : List String → String) (c : List String) (cls : ArrayClass)
    (elems : List JSVal) (h : consValB μ c (.varr cls elems) = true) :
    consListB μ c elems = true := by
  simpa [consValB] using h

theorem lockstepScalar (w : SerWorld) (e : Engine) (attr : String) (v : JSVal)
    (c : Cache) (hcache : CacheCanon w c) :
    LockstepG w
      (match encodeScalar e attr v (some c) with
       | .ok r => .ok r | .error msg => .error msg)
      (match encodeScalar e attr v none with
       | .ok r => .ok r | .error msg => .error msg) := by
  simp only [encodeScalar]
  cases hef : e.options.encoder with
  | none => simp [LockstepG]
  | some f =>
    simp only []
    cases hr : f (simpleDateAdjust e attr v) e.options.encoderOptions with
    | ok r0 => simp only [hr]; exact ⟨rfl, rfl, c, rfl, hcache⟩
    | error msg => simp only [hr]; simp [LockstepG]

theorem lockstepList (w : SerWorld) (fuel : Nat) (elems : List JSVal)
    (hval : ∀ x ∈ elems, ∀ e r attr c,
      canonEngineR w r = .ok e → chainOK r = true → dotFree attr = true →
      consValB w.modelAt (attr :: r) x = true → CacheCanon w c →
      LockstepG w (serializeValue w.reg w.defaults fuel e attr x (some c))
        (serializeValue w.reg w.defaults fuel e attr x none)) :
    ∀ e r attr c, canonEngineR w r = .ok e → chainOK r = true → dotFree attr = true →
      consListB w.modelAt (attr :: r) elems = true → CacheCanon w c →
      LockstepG w (serializeValueList w.reg w.defaults fuel e attr elems (some c))
        (serializeValueList w.reg w.defaults fuel e attr elems none) := by
  induction elems with
  | nil =>
    intro e r attr c _ _ _ _ hcache
    simp only [serializeValueList]
    exact ⟨rfl, rfl, c, rfl, hcache⟩
  | cons x xs ih =>
    intro e r attr c hcanon hchain hdot hcons hcache
    simp only [serializeValueList]
    have hcx : consValB w.modelAt (attr :: r) x = true := by
      simp only [consListB, Bool.and_eq_true] at hcons; exact hcons.1
    have hcxs : consListB w.modelAt (attr :: r) xs = true := by
      simp only [consListB, Bool.and_eq_true] at hcons; exact hcons.2
    have hx := hval x (by simp) e r attr c hcanon hchain hdot hcx hcache
    cases h1 : serializeValue w.reg w.defaults fuel e attr x (some c) with
    | error m =>
      cases h2 : serializeValue w.reg w.defaults fuel e attr x none with
      | error m2 =>
        rw [h1, h2] at hx
        simp only [LockstepG] at hx
        simp only [bind, Except.bind]
        simpa [LockstepG] using hx
      | ok p2 => rw [h1, h2] at hx; simp [LockstepG] at hx
    | ok p =>
      cases h2 : serializeValue w.reg w.defaults fuel e attr x none with
      | error m2 => rw [h1, h2] at hx; simp [LockstepG] at hx
      | ok p2 =>
        rw [h1, h2] at hx
        obtain ⟨y, oc⟩ := p
        obtain ⟨y2, oc2⟩ := p2
        simp only [LockstepG] at hx
        obtain ⟨hy, hoc2, c1, hoc, hc1⟩ := hx
        subst hy; subst hoc2; subst hoc
        simp only [bind, Except.bind]
        have hxs := ih (fun z hz => hval z (by simp [hz])) e r attr c1 hcanon hchain hdot hcxs hc1
        cases h3 : serializeValueList w.reg w.defaults fuel e attr xs (some c1) with
        | error m =>
          cases h4 : serializeValueList w.reg w.defaults fuel e attr xs none with
          | error m2 =>
            rw [h3, h4] at hxs
            simp only [LockstepG] at hxs
            simpa [LockstepG] using hxs
          | ok q2 => rw [h3, h4] at hxs; simp [LockstepG] at hxs
        | ok q =>
          cases h4 : serializeValueList w.reg w.defaults fuel e attr xs none with
          | error m2 => rw [h3, h4] at hxs; simp [LockstepG] at hxs
          | ok q2 =>
            rw [h3, h4] at hxs
            obtain ⟨ys, oc3⟩ := q
            obtain ⟨ys2, oc4⟩ := q2
            simp only [LockstepG] at hxs
            obtain ⟨hys, hoc4, c2, hoc3, hc2⟩ := hxs
            subst hys; subst hoc4; subst hoc3
            exact ⟨rfl, rfl, c2, rfl, hc2⟩

theorem lockstepValue_bounded (w : SerWorld) (fuel : Nat)
    (hassoc : ∀ e r attr mn data props c,
      canonEngineR w r = .ok e → chainOK r = true → dotFree attr = true →
      consValB w.modelAt (attr :: r) (.vinst mn data props) = true → CacheCanon w c →
      LockstepG w (serializeAssoc w.reg w.defaults fuel e attr (.vinst mn data props) (some c))
        (serializeAssoc w.reg w.defaults fuel e attr (.vinst mn data props) none)) :
    ∀ (n : Nat) (v : JSVal), sizeOf v ≤ n → ∀ e r attr c,
      canonEngineR w r = .ok e → chainOK r = true → dotFree attr = true →
      consValB w.modelAt (attr :: r) v = true → CacheCanon w c →
      LockstepG w (serializeValue w.reg w.defaults fuel e attr v (some c))
        (serializeValue w.reg w.defaults fuel e attr v none) := by
  intro n
  induction n with
  | zero => intro v hv; exact absurd hv (by cases v <;> simp)
  | succ n ih =>
    intro v hv e r attr c hcanon hchain hdot hcons hcache
    simp only [serializeValue.eq_def]
    by_cases hcj : copiesJSON e attr = true
    · rw [if_pos hcj, if_pos hcj]
      exact ⟨rfl, rfl, c, rfl, hcache⟩
    · rw [if_neg hcj, if_neg hcj]
      cases v <;> try exact lockstepScalar w e attr _ c hcache
      next cls elems =>
        cases cls <;> try exact lockstepScalar w e attr _ c hcache
        next =>
          have helems : consListB w.modelAt (attr :: r) elems = true :=
            consValB_varr _ _ _ _ hcons
          have hl := lockstepList w fuel elems
            (fun x hx e' r' attr' c' hc' hch' hd' hcx' hca' => by
              refine ih x ?_ e' r' attr' c' hc' hch' hd' hcx' hca'
              have h1 := List.sizeOf_lt_of_mem hx
              have h2 : sizeOf elems < sizeOf (JSVal.varr ArrayClass.array elems) := by simp
              omega)
            e r attr c hcanon hchain hdot helems hcache
          simp only []
          simp only [bind, Except.bind]
          cases h3 : serializeValueList w.reg w.defaults fuel e attr elems (some c) with
          | error m =>
            cases h4 : serializeValueList w.reg w.defaults fuel e attr elems none with
            | error m2 =>
              rw [h3, h4] at hl
              simp only [LockstepG] at hl
              simpa [LockstepG] using hl
            | ok q2 => rw [h3, h4] at hl; simp [LockstepG] at hl
          | ok q =>
            cases h4 : serializeValueList w.reg w.defaults fuel e attr elems none with
            | error m2 => rw [h3, h4] at hl; simp [LockstepG] at hl
            | ok q2 =>
              rw [h3, h4] at hl
              obtain ⟨es, oc⟩ := q
              obtain ⟨es2, oc2⟩ := q2
              simp only [LockstepG] at hl
              obtain ⟨hes, hoc2, c1, hoc, hc1⟩ := hl
              subst hes; subst hoc2; subst hoc
              exact ⟨rfl, rfl, c1, rfl, hc1⟩
      next mn data props =>
        simp only []
        exact hassoc e r attr mn data props c hcanon hchain hdot hcons hcache

theorem lockstepAttrs (w : SerWorld) (fuel : Nat)
    (hval : ∀ v e r attr c,
      canonEngineR w r = .ok e → chainOK r = true → dotFree attr = true →
      consValB w.modelAt (attr :: r) v = true → CacheCanon w c →
      LockstepG w (serializeValue w.reg w.defaults fuel e attr v (some c))
        (serializeValue w.reg w.defaults fuel e attr v none)) :
    ∀ (attrs : List String) e r inst out c,
      canonEngineR w r = .ok e → chainOK r = true →
      (∀ a ∈ attrs, dotFree (servedName e a) = true) →
      (∀ a ∈ attrs, consValB w.modelAt (servedName e a :: r) (fetchValue e inst a) = true) →
      CacheCanon w c →
      LockstepG w (serializeAttrs w.reg w.defaults fuel e inst attrs out (some c))
        (serializeAttrs w.reg w.defaults fuel e inst attrs out none) := by
  intro attrs
  induction attrs with
  | nil =>
    intro e r inst out c _ _ _ _ hcache
    simp only [serializeAttrs]
    exact ⟨rfl, rfl, c, rfl, hcache⟩
  | cons a rest ih =>
    intro e r inst out c hcanon hchain hserve hcons hcache
    simp only [serializeAttrs]
    by_cases h0 : jsTypeof (fetchValue e inst a) ≠ "undefined"
    · rw [if_pos h0, if_pos h0]
      have hx := hval (fetchValue e inst a) e r (servedName e a) c hcanon hchain
        (hserve a (by simp)) (hcons a (by simp)) hcache
      simp only [bind, Except.bind]
      cases h1 : serializeValue w.reg w.defaults fuel e (servedName e a)
          (fetchValue e inst a) (some c) with
      | error m =>
        cases h2 : serializeValue w.reg w.defaults fuel e (servedName e a)
            (fetchValue e inst a) none with
        | error m2 =>
          rw [h1, h2] at hx
          simp only [LockstepG] at hx
          simpa [LockstepG] using hx
        | ok p2 => rw [h1, h2] at hx; simp [LockstepG] at hx
      | ok p =>
        cases h2 : serializeValue w.reg w.defaults fuel e (servedName e a)
            (fetchValue e inst a) none with
        | error m2 => rw [h1, h2] at hx; simp [LockstepG] at hx
        | ok p2 =>
          rw [h1, h2] at hx
          obtain ⟨sv, oc⟩ := p
          obtain ⟨sv2, oc2⟩ := p2
          simp only [LockstepG] at hx
          obtain ⟨hsv, hoc2, c1, hoc, hc1⟩ := hx
          subst hsv; subst hoc2; subst hoc
          exact ih e r inst (jsSet out (outName e (servedName e a)) sv2) c1 hcanon hchain
            (fun b hb => hserve b (by simp [hb])) (fun b hb => hcons b (by simp [hb])) hc1
    · rw [if_neg h0, if_neg h0]
      by_cases h1 : e.options.undefinedPolicy = some POLICY_SKIP
      · rw [if_pos h1, if_pos h1]
        exact ih e r inst out c hcanon hchain
          (fun b hb => hserve b (by simp [hb])) (fun b hb => hcons b (by simp [hb])) hcache
      · rw [if_neg h1, if_neg h1]
        by_cases h2 : e.options.undefinedPolicy = some POLICY_SET_NULL
        · rw [if_pos h2, if_pos h2]
          exact ih e r inst (jsSet out (outName e (servedName e a)) .vnull) c hcanon hchain
            (fun b hb => hserve b (by simp [hb])) (fun b hb => hcons b (by simp [hb])) hcache
        · rw [if_neg h2, if_neg h2]
          by_cases h3 : e.options.undefinedPolicy = some POLICY_FAIL
          · rw [if_pos h3]
            simp [LockstepG]
          · rw [if_neg h3]
            simp [LockstepG]

theorem consVal_fetch (μ : List String → String) (r : List String) (e : Engine)
    (mn : String) (data props : List (String × JSVal))
    (h : consValB μ r (.vinst mn data props) = true) (a : String) :
    consValB μ (servedName e a :: r) (fetchValue e (.vinst mn data props) a) = true := by
  obtain ⟨-, hdata, hprops⟩ := consValB_vinst μ r mn data props h
  by_cases hg : isGenuineAttr e a = true
  · simp only [servedName, fetchValue, if_pos hg, instGet]
    cases hl : jsLookup data a with
    | some v => simpa using consFieldsB_lookup μ r data a v hdata hl
    | none => simpa using consValB_undefined μ (a :: r)
  · simp only [servedName, fetchValue, if_neg hg, instProp]
    cases hl : jsLookup props (stripDot a) with
    | some v =>
      simpa using consVal_callUnwrap μ (stripDot a :: r) v
        (consFieldsB_lookup μ r props (stripDot a) v hprops hl)
    | none => simpa [callUnwrap] using consValB_undefined μ (stripDot a :: r)

theorem lockstepInst (w : SerWorld) (fuel : Nat) (hserved : ServedOK w)
    (hattrs : ∀ (attrs : List String) e r inst out c,
      canonEngineR w r = .ok e → chainOK r = true →
      (∀ a ∈ attrs, dotFree (servedName e a) = true) →
      (∀ a ∈ attrs, consValB w.modelAt (servedName e a :: r) (fetchValue e inst a) = true) →
      CacheCanon w c →
      LockstepG w (serializeAttrs w.reg w.defaults fuel e inst attrs out (some c))
        (serializeAttrs w.reg w.defaults fuel e inst attrs out none)) :
    ∀ e r inst c,
      canonEngineR w r = .ok e → chainOK r = true →
      consValB w.modelAt r inst = true → CacheCanon w c →
      LockstepG w (serializeInst w.reg w.defaults fuel e inst (some c))
        (serializeInst w.reg w.defaults fuel e inst none) := by
  intro e r inst c hcanon hchain hcons hcache
  simp only [serializeInst]
  by_cases hio : isInstanceOf inst e.model = true
  · rw [if_pos hio, if_pos hio]
    cases inst <;> simp [isInstanceOf] at hio
    next mn data props =>
      simp only [bind, Except.bind]
      have hA := hattrs e.attrList e r (.vinst mn data props) [] c hcanon hchain
        (hserved r e hcanon)
        (fun a _ => consVal_fetch w.modelAt r e mn data props hcons a)
        hcache
      cases h1 : serializeAttrs w.reg w.defaults fuel e (.vinst mn data props)
          e.attrList [] (some c) with
      | error m =>
        cases h2 : serializeAttrs w.reg w.defaults fuel e (.vinst mn data props)
            e.attrList [] none with
        | error m2 =>
          rw [h1, h2] at hA
          simp only [LockstepG] at hA
          simpa [LockstepG] using hA
        | ok p2 => rw [h1, h2] at hA; simp [LockstepG] at hA
      | ok p =>
        cases h2 : serializeAttrs w.reg w.defaults fuel e (.vinst mn data props)
            e.attrList [] none with
        | error m2 => rw [h1, h2] at hA; simp [LockstepG] at hA
        | ok p2 =>
          rw [h1, h2] at hA
          obtain ⟨out, oc⟩ := p
          obtain ⟨out2, oc2⟩ := p2
          simp only [LockstepG] at hA
          obtain ⟨hout, hoc2, c1, hoc, hc1⟩ := hA
          subst hout; subst hoc2; subst hoc
          exact ⟨rfl, rfl, c1, rfl, hc1⟩
  · rw [if_neg hio, if_neg hio]
    simp [LockstepG]

theorem lockstepAssoc_zero (w : SerWorld) :
    ∀ e r attr mn data props c,
      canonEngineR w r = .ok e → chainOK r = true → dotFree attr = true →
      consValB w.modelAt (attr :: r) (.vinst mn data props) = true → CacheCanon w c →
      LockstepG w (serializeAssoc w.reg w.defaults 0 e attr (.vinst mn data props) (some c))
        (serializeAssoc w.reg w.defaults 0 e attr (.vinst mn data props) none) := by
  intro e r attr mn data props c _ _ _ _ _
  simp only [serializeAssoc.eq_def]
  simp [LockstepG]

theorem lockstepAssoc_succ (w : SerWorld) (fuel : Nat)
    (hinst : ∀ e r inst c,
      canonEngineR w r = .ok e → chainOK r = true →
      consValB w.modelAt r inst = true → CacheCanon w c →
      LockstepG w (serializeInst w.reg w.defaults fuel e inst (some c))
        (serializeInst w.reg w.defaults fuel e inst none)) :
    ∀ e r attr mn data props c,
      canonEngineR w r = .ok e → chainOK r = true → dotFree attr = true →
      consValB w.modelAt (attr :: r) (.vinst mn data props) = true → CacheCanon w c →
      LockstepG w
        (serializeAssoc w.reg w.defaults (fuel + 1) e attr (.vinst mn data props) (some c))
        (serializeAssoc w.reg w.defaults (fuel + 1) e attr (.vinst mn data props) none) := by
  intro e r attr mn data props c hcanon hchain hdot hcons hcache
  have hchain' : chainOK (attr :: r) = true := by
    simp only [chainOK, List.all_cons, Bool.and_eq_true]
    exact ⟨hdot, hchain⟩
  have hmn : mn = w.modelAt (attr :: r) := (consValB_vinst _ _ _ _ _ hcons).1
  have hpath : attrPathOf e attr = pathR (attr :: r) := attrPathOf_canon w r e attr hcanon
  have hcanonChild : canonEngineR w (attr :: r) = buildChild w.reg w.defaults e attr mn := by
    simp only [canonEngineR, hcanon, bind, Except.bind, ← hmn]
  simp only [serializeAssoc.eq_def]
  cases hl : jsLookup c (attrPathOf e attr) with
  | some s =>
    have hmem := jsLookup_mem c (attrPathOf e attr) s hl
    obtain ⟨r', hr'ne, hr'ok, hkey, hr'canon⟩ := hcache _ hmem
    have hreq : r' = attr :: r := by
      refine pathR_inj r' (attr :: r) hr'ok hchain' hr'ne (by simp) ?_
      rw [← hkey, hpath]
    subst hreq
    have hbc : buildChild w.reg w.defaults e attr mn = .ok s := by
      rw [← hcanonChild]
      exact hr'canon
    rw [hbc]
    simp only [bind, Except.bind]
    exact hinst s (attr :: r) (.vinst mn data props) c hr'canon hchain' hcons hcache
  | none =>
    cases hbc : buildChild w.reg w.defaults e attr mn with
    | error m =>
      simp [LockstepG, bind, Except.bind]
    | ok s =>
      simp only [bind, Except.bind]
      have hcanonS : canonEngineR w (attr :: r) = .ok s := by
        rw [hcanonChild]
        exact hbc
      have hcache' : CacheCanon w (jsSet c (attrPathOf e attr) s) :=
        cacheCanon_insert w c (attrPathOf e attr) s hcache hl (attr :: r) (by simp)
          hchain' hpath hcanonS
      exact hinst s (attr :: r) (.vinst mn data props) (jsSet c (attrPathOf e attr) s)
        hcanonS hchain' hcons hcache'

theorem lockstepInst_all (w : SerWorld) (hserved : ServedOK w) :
    ∀ fuel e r inst c,
      canonEngineR w r = .ok e → chainOK r = true →
      consValB w.modelAt r inst = true → CacheCanon w c →
      LockstepG w (serializeInst w.reg w.defaults fuel e inst (some c))
        (serializeInst w.reg w.defaults fuel e inst none) := by
  intro fuel
  induction fuel with
  | zero =>
    exact lockstepInst w 0 hserved
      (lockstepAttrs w 0 (fun v e r attr c hc hch hd hcv hca =>
        lockstepValue_bounded w 0
          (fun e' r' attr' mn' data' props' c' hc' hch' hd' hcv' hca' =>
            lockstepAssoc_zero w e' r' attr' mn' data' props' c' hc' hch' hd' hcv' hca')
          (sizeOf v) v le_rfl e r attr c hc hch hd hcv hca))
  | succ fuel ihf =>
    exact lockstepInst w (fuel + 1) hserved
      (lockstepAttrs w (fuel + 1) (fun v e r attr c hc hch hd hcv hca =>
        lockstepValue_bounded w (fuel + 1) (lockstepAssoc_succ w fuel ihf)
          (sizeOf v) v le_rfl e r attr c hc hch hd hcv hca))

theorem manyGo_mapM (w : SerWorld) (fuel : Nat) (s : Engine)
    (hserved : ServedOK w) (hroot : canonEngineR w [] = .ok s)
    (hS : mkSerializer w.defaults w.model w.scheme w.options = .ok s) :
    ∀ (data : List JSVal) (c : Cache), CacheCanon w c →
      (∀ inst ∈ data, consValB w.modelAt [] inst = true) →
      serializeManyGo w.reg w.defaults fuel s data c =
        data.mapM (serializeOne w.reg w.defaults fuel w.model w.scheme w.options) := by
  intro data
  induction data with
  | nil =>
    intro c _ _
    simp [serializeManyGo, List.mapM, List.mapM.loop, pure, Except.pure]
  | cons inst rest ih =>
    intro c hc hcons
    simp only [serializeManyGo, List.mapM_cons]
    have hl := lockstepInst_all w hserved fuel s [] inst c hroot (by simp [chainOK])
      (hcons inst (by simp)) hc
    cases h1 : serializeInst w.reg w.defaults fuel s inst (some c) with
    | error m =>
      cases h2 : serializeInst w.reg w.defaults fuel s inst none with
      | error m2 =>
        rw [h1, h2] at hl
        simp only [LockstepG] at hl
        subst hl
        simp [serializeOne, hS, bind, Except.bind, h2, Functor.map, Except.map]
      | ok p2 => rw [h1, h2] at hl; simp [LockstepG] at hl
    | ok p =>
      cases h2 : serializeInst w.reg w.defaults fuel s inst none with
      | error m2 => rw [h1, h2] at hl; simp [LockstepG] at hl
      | ok p2 =>
        rw [h1, h2] at hl
        obtain ⟨v, oc⟩ := p
        obtain ⟨v2, oc2⟩ := p2
        simp only [LockstepG] at hl
        obtain ⟨hv, hoc2, c1, hoc, hc1⟩ := hl
        subst hv; subst hoc2; subst hoc
        simp only [bind, Except.bind, Option.getD]
        rw [ih c1 hc1 (fun z hz => hcons z (by simp [hz]))]
        cases hmr : List.mapM (serializeOne w.reg w.defaults fuel w.model w.scheme w.options)
            rest with
        | error m3 =>
          simp [serializeOne, hS, bind, Except.bind, h2, pure, Except.pure,
            Functor.map, Except.map, hmr]
        | ok ys =>
          simp [serializeOne, hS, bind, Except.bind, h2, pure, Except.pure,
            Functor.map, Except.map, hmr]


/-- Counterexample to C6 as stated: a homogeneous collection of two `A`
records whose `b` association holds instances of two different models.
`serializeMany` caches the child engine built for the first record's `B1`
instance under the path key `b` and reuses it for the second record, whose
`B2` instance then fails the instance check (src/index.js lines 319-321,
334-335); serializing each record independently with no cache succeeds.  The
shared-cache output is not item-by-item equal to the independent outputs. -/
theorem serializeMany_cache_counterexample :
    serializeMany regH defaults0 3 [recH1, recH2] mA .absent none =
      .error "Not an instance of B1" ∧
    [recH1, recH2].mapM (serializeOne regH defaults0 3 mA .absent none) =
      .ok [.vobj [("x", .vnum 1), ("b", .vobj [("y", .vnum 2)])],
           .vobj [("x", .vnum 3), ("b", .vobj [("y", .vnum 4)])]] ∧
    (Except.error "Not an instance of B1" : Except String (List JSVal)) ≠
      .ok [.vobj [("x", .vnum 1), ("b", .vobj [("y", .vnum 2)])],
           .vobj [("x", .vnum 3), ("b", .vobj [("y", .vnum 4)])]] := by
  have hA : mkSerializer defaults0 mA .absent none = .ok eA := by rfl
  have hB1 : mkSerializer defaults0 mB1 .absent none = .ok eB1 := by rfl
  have hB2 : mkSerializer defaults0 mB2 .absent none = .ok eB2 := by rfl
  have hn1 : mB1.name = "B1" := rfl
  have hn2 : mB2.name = "B2" := rfl
  have hsz1 : mB1.serializer = none := rfl
  have hsz2 : mB2.serializer = none := rfl
  have hra1 : mB1.rawAttributes = [("y", { fieldName := "y" })] := rfl
  have hra2 : mB2.rawAttributes = [("y", { fieldName := "y" })] := rfl
  have hnA : mA.name = "A" := rfl
  have hszA : mA.serializer = none := rfl
  have hraA : mA.rawAttributes = [("x", { fieldName := "x" }), ("b", { fieldName := "b" })] := rfl
  refine ⟨?_, ?_, by simp⟩
  · simp +decide [serializeMany, serializeManyGo, hA, hB1, hn1, hsz1, hra1,
      serializeInst, serializeAttrs, serializeValue, serializeValueList, serializeAssoc,
      buildChild, copiesJSON, encodeScalar, simpleDateAdjust, servedName, fetchValue,
      outName, isGenuineAttr, isInstanceOf, instGet, instProp, callUnwrap, stripDot,
      strStartsWith, strTail, jsLookup, jsSet, attrPathOf, assocSchemeRef, emptyScheme,
      JScheme.include?, JScheme.exclude, JScheme.assoc, JScheme.as, JScheme.options,
      JScheme.postSerialize, encodeToJSON, jsTypeof, PLAIN_TYPES, jsClassName, jsFalsy,
      ARRAY_TYPES, eA, eB1, hnA, hszA, hraA, recH1, recH2, regH, bind, Except.bind,
      pure, Except.pure]
  · simp +decide [List.mapM, List.mapM.loop, serializeOne, hA, hB1, hB2, hn1, hn2,
      hsz1, hsz2, hra1, hra2,
      serializeInst, serializeAttrs, serializeValue, serializeValueList, serializeAssoc,
      buildChild, copiesJSON, encodeScalar, simpleDateAdjust, servedName, fetchValue,
      outName, isGenuineAttr, isInstanceOf, instGet, instProp, callUnwrap, stripDot,
      strStartsWith, strTail, jsLookup, jsSet, attrPathOf, assocSchemeRef, emptyScheme,
      JScheme.include?, JScheme.exclude, JScheme.assoc, JScheme.as, JScheme.options,
      JScheme.postSerialize, encodeToJSON, jsTypeof, PLAIN_TYPES, jsClassName, jsFalsy,
      ARRAY_TYPES, eA, eB1, eB2, hnA, hszA, hraA, recH1, recH2, regH, bind, Except.bind,
      pure, Except.pure, Functor.map, Except.map]

/-- C6 (corrected): serializing a collection with one engine and one shared
cache (`serializeMany`, src/index.js lines 383-392) produces outputs
item-by-item equal to serializing each record independently with no cache,
under the two side conditions that make engine caching sound: every
attribute name any engine in the run serves is a nonempty dot-free string
(so association-path cache keys are unambiguous), and the collection is
homogeneous per association path (the model of every associated instance is
a function `modelAt` of its attribute chain alone).  The counterexample
shows the second condition cannot be dropped. -/
theorem serializeMany_matches_independent (w : SerWorld) (fuel : Nat)
    (data : List JSVal) (s : Engine) (hserved : ServedOK w)
    (hS : mkSerializer w.defaults w.model w.scheme w.options = .ok s)
    (hdata : ∀ inst ∈ data, consValB w.modelAt [] inst = true) :
    serializeMany w.reg w.defaults fuel data w.model w.scheme w.options =
      data.mapM (serializeOne w.reg w.defaults fuel w.model w.scheme w.options) := by
  have hroot : canonEngineR w [] = .ok s := by
    simp only [canonEngineR]
    exact hS
  have hempty : CacheCanon w ([] : Cache) := by
    intro kv hkv
    exact absurd hkv (List.not_mem_nil kv)
  simp only [serializeMany, hS, bind, Except.bind]
  exact manyGo_mapM w fuel s hserved hroot hS data [] hempty hdata

/-- Witness for C6: the amended theorem applied to the homogeneous
two-model world: two identical `A` records with `B` children; the shared
cache run equals the independent runs. -/
theorem serializeMany_matches_independent_witness :
    serializeMany regAB defaults0 3 [recAB, recAB] mA .absent none =
      [recAB, recAB].mapM (serializeOne regAB defaults0 3 mA .absent none) := by
  have hA : mkSerializer defaults0 mA .absent none = .ok eA := by rfl
  have hserved : ServedOK wAB := by
    intro r e h a ha
    match r with
    | [] =>
      rw [show canonEngineR wAB [] = .ok eA from rfl] at h
      cases h
      simp [eA] at ha
      rcases ha with rfl | rfl <;> decide
    | [a1] =>
      by_cases hb : a1 = "b"
      · subst hb
        rw [show canonEngineR wAB ["b"] = .ok { eB with attrPath := some "b" } from rfl] at h
        cases h
        simp [eB] at ha
        subst ha
        decide
      · exfalso
        have hmu : muAB [a1] = "?" := by simp [muAB, hb]
        have hh : canonEngineR wAB [a1] = buildChild regAB defaults0 eA a1 (muAB [a1]) := rfl
        rw [hh, hmu] at h
        simp +decide [buildChild, regAB, jsLookup] at h
    | a1 :: a2 :: r2 =>
      exfalso
      have hmu : muAB (a1 :: a2 :: r2) = "?" := by simp [muAB]
      have hh : canonEngineR wAB (a1 :: a2 :: r2) =
          Except.bind (canonEngineR wAB (a2 :: r2))
            (fun p => buildChild regAB defaults0 p a1 (muAB (a1 :: a2 :: r2))) := rfl
      rw [hh, hmu] at h
      cases hp : canonEngineR wAB (a2 :: r2) with
      | error m => rw [hp] at h; simp [Except.bind] at h
      | ok p =>
        rw [hp] at h
        simp only [Except.bind] at h
        simp +decide [buildChild, regAB, jsLookup] at h
  have hdata : ∀ inst ∈ ([recAB, recAB] : List JSVal),
      consValB wAB.modelAt [] inst = true := by
    intro inst h
    simp only [List.mem_cons, List.not_mem_nil, or_false] at h
    rcases h with rfl | rfl <;>
      simp +decide [recAB, consValB, consFieldsB, consListB, wAB, muAB]
  exact serializeMany_matches_independent wAB 3 [recAB, recAB] eA hserved hA hdata
